import Mathlib

/-!
Verification of the `ida-netnode` key-value layer (`src/netnode/netnode.py`).

The repository wraps IDA's low-level `netnode` store into a dict-like
interface (`Netnode`) that supports integer and string keys and values of
unbounded size.  Small compressed values are stored inline in the default
supval/hashval tables; large ones (strictly more than `BLOB_SIZE = 1024`
bytes after compression) go to a blob table, with a pointer entry (the
decimal-encoded blob index) stored in an auxiliary tag table.

The primitive store (`idaapi.netnode`) is an external collaborator; it is
modelled here, per the specification's interface description, as six sorted
association lists (one per sub-table / tag): forward iteration of a table
yields its keys in ascending order and `suplast` returns the greatest
occupied index.  The codec (`json` + `zlib`, also external libraries) is
modelled parametrically: theorems take the serializer, compressor and their
inverses as parameters constrained only by the round-trip contract the
specification states for them.  A concrete model of `zlib.compress` output
(RFC 1950 framing with stored-type deflate blocks) is also provided, to
settle the claim that compressed output is never the empty byte string.

Python exceptions are modelled by an error enumeration: `KeyError`,
`NetnodeCorruptError` (a `RuntimeError`), `zlib.error` and `ValueError`
(which covers `json` decode errors and failures of `int(...)` parsing).
-/

namespace IdaNetnode

set_option maxRecDepth 8000

/-- A byte string, as a list of byte values. -/
abbrev Bytes := List Nat

/-- The Python exception kinds that the library's code paths can raise.
`keyError` is `KeyError`, `corruptError` is `NetnodeCorruptError` (a
`RuntimeError` subclass), `zlibError` is `zlib.error`, and `valueError`
covers `ValueError` and its subclasses (`json` decode errors,
`UnicodeDecodeError`, and `int()` parse failures). -/
inductive PErr where
  | keyError
  | corruptError
  | zlibError
  | valueError
deriving DecidableEq, Repr

section AList

variable {κ : Type} [LinearOrder κ]

/-- Lookup in an association list (a netnode sub-table): the value stored
under key `k`, or `none` when the key is absent.  Models `supval`,
`hashval` and `getblob` of the primitive store. -/
def alook (k : κ) : List (κ × Bytes) → Option Bytes
  | [] => none
  | (k', v) :: t => if k = k' then some v else alook k t

/-- Insert (or replace) a binding in a key-sorted association list.
Models `supset`, `hashset` and `setblob` of the primitive store. -/
def ains (k : κ) (v : Bytes) : List (κ × Bytes) → List (κ × Bytes)
  | [] => [(k, v)]
  | (k', v') :: t =>
    if k < k' then (k, v) :: (k', v') :: t
    else if k = k' then (k, v) :: t
    else (k', v') :: ains k v t

/-- Remove a binding from an association list.  Models `supdel`,
`hashdel` and `delblob` of the primitive store. -/
def adel (k : κ) : List (κ × Bytes) → List (κ × Bytes)
  | [] => []
  | (k', v') :: t => if k = k' then t else (k', v') :: adel k t

/-- The keys of a sub-table, in table order (forward iteration order of
the primitive store). -/
def keysOf (l : List (κ × Bytes)) : List κ := l.map Prod.fst

/-- A sub-table is well-formed when its keys are strictly ascending; the
primitive store's forward iteration yields keys in ascending order. -/
def SortedKeys (l : List (κ × Bytes)) : Prop := (keysOf l).Chain' (· < ·)

/-- The greatest key of a sub-table, or `none` when it is empty.  Models
`suplast` of the primitive store. -/
def lastKey (l : List (κ × Bytes)) : Option κ := (keysOf l).getLast?

end AList

/-- Python truthiness: `True` exactly when the Python value (`None` for an absent entry, the
stored byte string otherwise) is truthy: `None` and the empty byte string
are falsy, every non-empty byte string is truthy. -/
def truthy : Option Bytes → Bool
  | none => false
  | some b => !b.isEmpty

/-- Is a byte an ASCII decimal digit? -/
def isDigitByte (b : Nat) : Bool := 48 ≤ b && b ≤ 57

/-- Model of Python's `int(...)` applied to an ASCII byte/character string:
parses a non-empty all-digit string as a decimal number, and fails
(`ValueError`) otherwise.  (The code's pointer entries are always produced
by `str(storekey).encode('utf-8')`, i.e. plain decimal digits.) -/
def parseDecimal (bs : Bytes) : Option Nat :=
  if bs ≠ [] ∧ bs.all isDigitByte then
    some (Nat.ofDigits 10 ((bs.map (· - 48)).reverse))
  else
    none

/-- Model of Python's `str(n).encode('utf-8')` for a natural number `n`:
its decimal digits, most significant first, as ASCII bytes. -/
def natToDecimal (n : Nat) : Bytes :=
  if n = 0 then [48] else (Nat.digits 10 n).reverse.map (· + 48)

theorem natToDecimal_ne_nil (n : Nat) : natToDecimal n ≠ [] := by
  unfold natToDecimal
  split
  · simp
  · intro h
    have hd := (@Nat.digits_ne_nil_iff_ne_zero 10 n).mpr (by assumption)
    simp only [List.map_eq_nil_iff, List.reverse_eq_nil_iff] at h
    exact hd h

theorem parseDecimal_natToDecimal (n : Nat) :
    parseDecimal (natToDecimal n) = some n := by
  by_cases h0 : n = 0
  · subst h0; rfl
  · unfold natToDecimal parseDecimal
    rw [if_neg h0]
    have hdig : ∀ d ∈ Nat.digits 10 n, d < 10 := fun d hd =>
      Nat.digits_lt_base (by norm_num) hd
    have hall : ((Nat.digits 10 n).reverse.map (· + 48)).all isDigitByte := by
      rw [List.all_eq_true]
      intro b hb
      rw [List.mem_map] at hb
      obtain ⟨d, hd, rfl⟩ := hb
      rw [List.mem_reverse] at hd
      have := hdig d hd
      simp only [isDigitByte, Bool.and_eq_true, decide_eq_true_eq]
      omega
    rw [if_pos]
    · congr 1
      simp only [List.map_map, List.map_reverse, List.reverse_reverse]
      have : ((fun x => x - 48) ∘ (fun x => x + 48) : Nat → Nat) = id := by
        funext d; simp
      rw [this, List.map_id]
      exact Nat.ofDigits_digits 10 n
    · constructor
      · have := natToDecimal_ne_nil n
        unfold natToDecimal at this
        rw [if_neg h0] at this
        exact this
      · exact hall

theorem natToDecimal_injective : Function.Injective natToDecimal := by
  intro a b h
  have := parseDecimal_natToDecimal a
  rw [h, parseDecimal_natToDecimal b] at this
  exact (Option.some_injective _ this).symm

/-! ### A concrete model of `zlib.compress` output

`Netnode._compress` delegates to `zlib.compress`, an external library.
Its output format is fixed (RFC 1950): a two-byte header, a DEFLATE
stream, and a four-byte Adler-32 trailer.  We model the stored-block
DEFLATE encoding (the format `zlib` emits at compression level 0; any
level produces the same framing).  Only the shape of the output matters
for the claims below — in particular that it is never empty. -/

/-- One step of the Adler-32 rolling checksum. -/
def adlerStep (p : Nat × Nat) (b : Nat) : Nat × Nat :=
  ((p.1 + b) % 65521, (p.2 + p.1 + b) % 65521)

/-- Adler-32 checksum of a byte string (RFC 1950 section 8.2). -/
def adler32 (d : Bytes) : Nat :=
  let p := d.foldl adlerStep (1, 0)
  p.2 * 65536 + p.1

/-- Big-endian 4-byte encoding of a 32-bit value. -/
def be32 (n : Nat) : Bytes :=
  [n / 16777216 % 256, n / 65536 % 256, n / 256 % 256, n % 256]

/-- DEFLATE stored-type (uncompressed) block encoding: each block is a
header byte (final-block flag, block type 00), the chunk length and its
ones-complement as little-endian 16-bit values, then the raw bytes.
The fuel argument (instantiated with the input length, which always
suffices since every step consumes 65535 bytes) keeps the recursion
structural. -/
def deflateStoredAux : Nat → Bytes → Bytes
  | 0, d =>
    [1, d.length % 256, d.length / 256,
      (65535 - d.length) % 256, (65535 - d.length) / 256] ++ d
  | fuel + 1, d =>
    if d.length ≤ 65535 then
      [1, d.length % 256, d.length / 256,
        (65535 - d.length) % 256, (65535 - d.length) / 256] ++ d
    else
      [0, 255, 255, 0, 0] ++ d.take 65535 ++ deflateStoredAux fuel (d.drop 65535)

/-- The DEFLATE stored-block stream for a byte string. -/
def deflateStored (d : Bytes) : Bytes := deflateStoredAux d.length d

/-- Model of `zlib.compress`: RFC 1950 framing — the two-byte zlib header,
a DEFLATE stream (stored blocks), and the big-endian Adler-32 checksum of
the input. -/
def zlibCompress (d : Bytes) : Bytes :=
  120 :: 1 :: (deflateStored d ++ be32 (adler32 d))

theorem zlibCompress_ne_nil (d : Bytes) : zlibCompress d ≠ [] := by
  simp [zlibCompress]

/-! ### The netnode state and the operations of `Netnode`

The state of one `idaapi.netnode` namespace, as used by this library:
the default supval table (integer keys, small values), the supval table of
tag `'P'` (`INT_TO_INT_MAP_TAG`, integer key → decimal blob index), the
default hashval table (string keys, small values), the hashval table of
tag `'O'` (`STR_TO_INT_MAP_TAG`), and the blob tables of tags `'M'`
(`INT_KEYS_TAG`) and `'N'` (`STR_KEYS_TAG`).  Each is a key-sorted
association list. -/

structure NNState where
  sup : List (Nat × Bytes)
  supP : List (Nat × Bytes)
  hashT : List (Bytes × Bytes)
  hashO : List (Bytes × Bytes)
  blobM : List (Nat × Bytes)
  blobN : List (Nat × Bytes)
deriving DecidableEq, Repr

/-- The freshly created (or killed and recreated) empty netnode. -/
def nnEmpty : NNState := ⟨[], [], [], [], [], []⟩

/-- The constant `BLOB_SIZE`: values of compressed length strictly greater than this
are stored through the blob table. -/
def BLOB_SIZE : Nat := 1024

/-- A logical key of the facade: an integer or a string.  String keys are
modelled by their byte sequences, since the primitive store's hashval
tables key on byte strings and iterate them in byte-wise lexicographic
order (and UTF-8 preserves the code-point order of Python strings). -/
inductive NKey where
  | int (n : Nat)
  | str (s : Bytes)
deriving DecidableEq, Repr

namespace Netnode

/-- Model of `Netnode._get_next_slot(tag)`: `suplast(tag) + 1`, or 0 when the
tag's table is empty.  The argument is the table stored under the tag the
code passes (`INT_KEYS_TAG` / `STR_KEYS_TAG`, i.e. the blob table of the
domain). -/
def _get_next_slot (tbl : List (Nat × Bytes)) : Nat :=
  match lastKey tbl with
  | none => 0
  | some m => m + 1

/-- Model of `Netnode._intdel(key)`: delete the blob and pointer entry when an
overflow pointer exists, delete the inline entry when it exists, and raise
`KeyError` when neither was present.  `int(storekey)` raises `ValueError`
on a malformed pointer entry. -/
def _intdel (s : NNState) (key : Nat) : Except PErr NNState :=
  match alook key s.supP with
  | some sk =>
    match parseDecimal sk with
    | none => .error .valueError
    | some storekey =>
      let s1 : NNState := { s with blobM := adel storekey s.blobM, supP := adel key s.supP }
      if (alook key s1.sup).isSome then
        .ok { s1 with sup := adel key s1.sup }
      else
        .ok s1
  | none =>
    if (alook key s.sup).isSome then
      .ok { s with sup := adel key s.sup }
    else
      .error .keyError

/-- The write phase of `Netnode._intset`, after the old entry has been
cleared: values longer than `BLOB_SIZE` go to a fresh blob slot of tag
`'M'` with the decimal slot number as pointer entry in tag `'P'`; others
are stored inline in the default supval table. -/
def _intset_write (s1 : NNState) (key : Nat) (value : Bytes) : NNState :=
  if value.length > BLOB_SIZE then
    let storekey := _get_next_slot s1.blobM
    { s1 with blobM := ains storekey value s1.blobM,
              supP := ains key (natToDecimal storekey) s1.supP }
  else
    { s1 with sup := ains key value s1.sup }

/-- Model of `Netnode._intset(key, value)`: clear any prior form of the entry
(`_intdel`, swallowing only `KeyError`), then store the value inline or
through the blob table depending on its length. -/
def _intset (s : NNState) (key : Nat) (value : Bytes) : Except PErr NNState :=
  match _intdel s key with
  | .ok s1 => .ok (_intset_write s1 key value)
  | .error .keyError => .ok (_intset_write s key value)
  | .error e => .error e

/-- Model of `Netnode._intget(key)`: follow the overflow pointer when present
(raising `NetnodeCorruptError` when its blob is missing), otherwise return
the inline entry, otherwise raise `KeyError`. -/
def _intget (s : NNState) (key : Nat) : Except PErr Bytes :=
  match alook key s.supP with
  | some sk =>
    match parseDecimal sk with
    | none => .error .valueError
    | some storekey =>
      match alook storekey s.blobM with
      | none => .error .corruptError
      | some v => .ok v
  | none =>
    match alook key s.sup with
    | some v => .ok v
    | none => .error .keyError

/-- Model of `Netnode._strdel(key)`: like `_intdel` for the string domain.  Note
the presence test for the inline entry is `if self._n.hashval(key):`,
i.e. Python truthiness — an empty stored byte string is treated as
absent. -/
def _strdel (s : NNState) (key : Bytes) : Except PErr NNState :=
  match alook key s.hashO with
  | some sk =>
    match parseDecimal sk with
    | none => .error .valueError
    | some storekey =>
      let s1 : NNState := { s with blobN := adel storekey s.blobN, hashO := adel key s.hashO }
      if truthy (alook key s1.hashT) then
        .ok { s1 with hashT := adel key s1.hashT }
      else
        .ok s1
  | none =>
    if truthy (alook key s.hashT) then
      .ok { s with hashT := adel key s.hashT }
    else
      .error .keyError

/-- The write phase of `Netnode._strset`, after the old entry has been
cleared. -/
def _strset_write (s1 : NNState) (key : Bytes) (value : Bytes) : NNState :=
  if value.length > BLOB_SIZE then
    let storekey := _get_next_slot s1.blobN
    { s1 with blobN := ains storekey value s1.blobN,
              hashO := ains key (natToDecimal storekey) s1.hashO }
  else
    { s1 with hashT := ains key value s1.hashT }

/-- Model of `Netnode._strset(key, value)`. -/
def _strset (s : NNState) (key : Bytes) (value : Bytes) : Except PErr NNState :=
  match _strdel s key with
  | .ok s1 => .ok (_strset_write s1 key value)
  | .error .keyError => .ok (_strset_write s key value)
  | .error e => .error e

/-- Model of `Netnode._strget(key)`.  The inline branch tests `v is not None`, so
an empty stored byte string is returned here (unlike `_strdel`). -/
def _strget (s : NNState) (key : Bytes) : Except PErr Bytes :=
  match alook key s.hashO with
  | some sk =>
    match parseDecimal sk with
    | none => .error .valueError
    | some storekey =>
      match alook storekey s.blobN with
      | none => .error .corruptError
      | some v => .ok v
  | none =>
    match alook key s.hashT with
    | some v => .ok v
    | none => .error .keyError

/-! ### The dict-like facade

The codec is external (`json.dumps`/`json.loads` and
`zlib.compress`/`zlib.decompress`); the facade operations below are
parametric in it.  `α` is the type of representable (JSON-serializable)
values; decoding returns an `Option α` because `json.loads` can produce
`None` (JSON `null`) for bytes not written by this facade, and Python's
`is not None` tests distinguish that case.  `enc`/`comp` model
`Netnode._encode`/`Netnode._compress` (total functions), `decomp`/`dec`
model `Netnode._decompress`/`Netnode._decode` (which raise `zlib.error`
and `ValueError` respectively on malformed input). -/

section Facade

variable {α : Type}

/-- Model of `Netnode.__getitem__(key)`: dispatch on the key's type, then
decompress and decode the stored bytes. -/
def __getitem__ (decomp : Bytes → Except PErr Bytes)
    (dec : Bytes → Except PErr (Option α)) (s : NNState) (k : NKey) :
    Except PErr (Option α) :=
  match (match k with
         | .str key => _strget s key
         | .int key => _intget s key) with
  | .error e => .error e
  | .ok v =>
    match decomp v with
    | .error e => .error e
    | .ok data => dec data

/-- Model of `Netnode.__setitem__(key, value)`: compress the encoded value and
dispatch on the key's type.  The argument type `α` only contains
representable non-`None` values, so the `assert value is not None` and the
`TypeError` branch for other key types cannot fire. -/
def __setitem__ (enc : α → Bytes) (comp : Bytes → Bytes) (s : NNState)
    (k : NKey) (value : α) : Except PErr NNState :=
  let v := comp (enc value)
  match k with
  | .str key => _strset s key v
  | .int key => _intset s key v

/-- Model of `Netnode.__delitem__(key)`. -/
def __delitem__ (s : NNState) (k : NKey) : Except PErr NNState :=
  match k with
  | .str key => _strdel s key
  | .int key => _intdel s key

/-- Model of `Netnode.get(key, default)`: `self[key]`, with `KeyError` and
`zlib.error` turned into the default.  Every other exception —
in particular `NetnodeCorruptError` and the `ValueError` of a decode
failure — propagates. -/
def get (decomp : Bytes → Except PErr Bytes)
    (dec : Bytes → Except PErr (Option α)) (s : NNState) (k : NKey)
    (dflt : Option α) : Except PErr (Option α) :=
  match __getitem__ decomp dec s k with
  | .ok v => .ok v
  | .error .keyError => .ok dflt
  | .error .zlibError => .ok dflt
  | .error e => .error e

/-- Model of `Netnode.__contains__(key)`: `self[key] is not None`, with `KeyError`
and `zlib.error` turned into `False`.  Every other exception propagates. -/
def __contains__ (decomp : Bytes → Except PErr Bytes)
    (dec : Bytes → Except PErr (Option α)) (s : NNState) (k : NKey) :
    Except PErr Bool :=
  match __getitem__ decomp dec s k with
  | .ok v => .ok v.isSome
  | .error .keyError => .ok false
  | .error .zlibError => .ok false
  | .error e => .error e

end Facade

/-- Model of `Netnode.iterkeys()`: integer keys of the default supval table, then
integer keys of the tag-`'P'` supval table, then string keys of the
default hashval table, then string keys of the tag-`'O'` hashval table,
each in the underlying table's forward iteration order. -/
def iterkeys (s : NNState) : List NKey :=
  (s.sup.map (fun p => NKey.int p.1)) ++
  (s.supP.map (fun p => NKey.int p.1)) ++
  (s.hashT.map (fun p => NKey.str p.1)) ++
  (s.hashO.map (fun p => NKey.str p.1))

/-- Model of `Netnode.keys()`: the list produced by `iterkeys`. -/
def keys (s : NNState) : List NKey := iterkeys s

end Netnode

/-! ### Association-list lemmas -/

section AListLemmas

variable {κ : Type} [LinearOrder κ]

@[simp] theorem keysOf_nil : keysOf ([] : List (κ × Bytes)) = [] := rfl

@[simp] theorem keysOf_cons (a : κ) (b : Bytes) (t : List (κ × Bytes)) :
    keysOf ((a, b) :: t) = a :: keysOf t := rfl

theorem alook_cons (k k' : κ) (v : Bytes) (t : List (κ × Bytes)) :
    alook k ((k', v) :: t) = if k = k' then some v else alook k t := rfl

theorem ains_cons (k k' : κ) (v v' : Bytes) (t : List (κ × Bytes)) :
    ains k v ((k', v') :: t) =
      if k < k' then (k, v) :: (k', v') :: t
      else if k = k' then (k, v) :: t
      else (k', v') :: ains k v t := rfl

theorem adel_cons (k k' : κ) (v' : Bytes) (t : List (κ × Bytes)) :
    adel k ((k', v') :: t) = if k = k' then t else (k', v') :: adel k t := rfl

theorem alook_ains_self (k : κ) (v : Bytes) (l : List (κ × Bytes)) :
    alook k (ains k v l) = some v := by
  induction l with
  | nil => simp [ains, alook]
  | cons hd t ih =>
    obtain ⟨k', v'⟩ := hd
    rw [ains_cons]
    by_cases h1 : k < k'
    · rw [if_pos h1, alook_cons, if_pos rfl]
    · rw [if_neg h1]
      by_cases h2 : k = k'
      · rw [if_pos h2, alook_cons, if_pos rfl]
      · rw [if_neg h2, alook_cons, if_neg h2]
        exact ih

theorem alook_ains_ne {k k' : κ} (h : k' ≠ k) (v : Bytes) (l : List (κ × Bytes)) :
    alook k' (ains k v l) = alook k' l := by
  induction l with
  | nil => simp [ains, alook, h]
  | cons hd t ih =>
    obtain ⟨k₀, v₀⟩ := hd
    rw [ains_cons]
    by_cases h1 : k < k₀
    · rw [if_pos h1, alook_cons, if_neg h, alook_cons]
    · rw [if_neg h1]
      by_cases h2 : k = k₀
      · subst h2
        rw [if_pos rfl, alook_cons, if_neg h, alook_cons, if_neg h]
      · rw [if_neg h2, alook_cons]
        by_cases h3 : k' = k₀
        · rw [if_pos h3, alook_cons, if_pos h3]
        · rw [if_neg h3, alook_cons, if_neg h3]
          exact ih

theorem alook_adel_ne {k k' : κ} (h : k' ≠ k) (l : List (κ × Bytes)) :
    alook k' (adel k l) = alook k' l := by
  induction l with
  | nil => simp [adel]
  | cons hd t ih =>
    obtain ⟨k₀, v₀⟩ := hd
    rw [adel_cons]
    by_cases h1 : k = k₀
    · subst h1
      rw [if_pos rfl, alook_cons, if_neg h]
    · rw [if_neg h1, alook_cons, alook_cons]
      by_cases h2 : k' = k₀
      · rw [if_pos h2, if_pos h2]
      · rw [if_neg h2, if_neg h2]
        exact ih

theorem alook_none_iff {k : κ} {l : List (κ × Bytes)} :
    alook k l = none ↔ k ∉ keysOf l := by
  induction l with
  | nil => simp [alook, keysOf]
  | cons hd t ih =>
    obtain ⟨k₀, v₀⟩ := hd
    rw [alook_cons, keysOf_cons]
    by_cases h : k = k₀
    · subst h
      simp
    · rw [if_neg h, ih]
      simp [h]

theorem alook_isSome_iff {k : κ} {l : List (κ × Bytes)} :
    (alook k l).isSome ↔ k ∈ keysOf l := by
  rw [← Option.ne_none_iff_isSome]
  constructor
  · intro h
    by_contra hk
    exact h (alook_none_iff.mpr hk)
  · intro h hnone
    exact (alook_none_iff.mp hnone) h

theorem sortedKeys_pairwise {l : List (κ × Bytes)} (hs : SortedKeys l) :
    (keysOf l).Pairwise (· < ·) :=
  List.chain'_iff_pairwise.mp hs

theorem sortedKeys_tail {hd : κ × Bytes} {t : List (κ × Bytes)}
    (hs : SortedKeys (hd :: t)) : SortedKeys t := by
  obtain ⟨a, b⟩ := hd
  rw [SortedKeys, keysOf_cons] at hs
  exact List.Chain'.tail hs

theorem adel_of_not_mem {k : κ} {l : List (κ × Bytes)} (h : k ∉ keysOf l) :
    adel k l = l := by
  induction l with
  | nil => rfl
  | cons hd t ih =>
    obtain ⟨k₀, v₀⟩ := hd
    rw [keysOf_cons, List.mem_cons] at h
    push_neg at h
    rw [adel_cons, if_neg h.1, ih h.2]

theorem alook_adel_self {k : κ} {l : List (κ × Bytes)} (hs : SortedKeys l) :
    alook k (adel k l) = none := by
  induction l with
  | nil => rfl
  | cons hd t ih =>
    obtain ⟨k₀, v₀⟩ := hd
    have hp := sortedKeys_pairwise hs
    rw [keysOf_cons, List.pairwise_cons] at hp
    rw [adel_cons]
    by_cases h : k = k₀
    · subst h
      rw [if_pos rfl, alook_none_iff]
      intro hm
      exact lt_irrefl k (hp.1 k hm)
    · rw [if_neg h, alook_cons, if_neg h]
      exact ih (sortedKeys_tail hs)

theorem alook_adel_sub {k k' : κ} {l : List (κ × Bytes)} {b : Bytes} (hs : SortedKeys l)
    (h : alook k' (adel k l) = some b) : alook k' l = some b := by
  by_cases hk : k' = k
  · subst hk
    rw [alook_adel_self hs] at h
    exact absurd h (by simp)
  · rwa [alook_adel_ne hk] at h

theorem mem_keysOf_ains {k k' : κ} {v : Bytes} {l : List (κ × Bytes)} :
    k' ∈ keysOf (ains k v l) ↔ k' = k ∨ k' ∈ keysOf l := by
  induction l with
  | nil => simp [ains, keysOf]
  | cons hd t ih =>
    obtain ⟨k₀, v₀⟩ := hd
    rw [ains_cons]
    by_cases h1 : k < k₀
    · rw [if_pos h1]
      simp only [keysOf_cons, List.mem_cons] <;> tauto
    · rw [if_neg h1]
      by_cases h2 : k = k₀
      · subst h2
        rw [if_pos rfl]
        simp only [keysOf_cons, List.mem_cons] <;> tauto
      · rw [if_neg h2]
        simp only [keysOf_cons, List.mem_cons, ih] <;> tauto

theorem keysOf_adel_sub {k k' : κ} {l : List (κ × Bytes)}
    (h : k' ∈ keysOf (adel k l)) : k' ∈ keysOf l := by
  induction l with
  | nil => simpa [adel] using h
  | cons hd t ih =>
    obtain ⟨k₀, v₀⟩ := hd
    rw [adel_cons] at h
    rw [keysOf_cons, List.mem_cons]
    by_cases h1 : k = k₀
    · rw [if_pos h1] at h
      exact Or.inr h
    · rw [if_neg h1, keysOf_cons, List.mem_cons] at h
      rcases h with h | h
      · exact Or.inl h
      · exact Or.inr (ih h)

theorem sorted_ains {k : κ} {v : Bytes} {l : List (κ × Bytes)} (hs : SortedKeys l) :
    SortedKeys (ains k v l) := by
  rw [SortedKeys, List.chain'_iff_pairwise] at hs ⊢
  induction l with
  | nil => simp [ains, keysOf]
  | cons hd t ih =>
    obtain ⟨k₀, v₀⟩ := hd
    rw [keysOf_cons, List.pairwise_cons] at hs
    rw [ains_cons]
    by_cases h1 : k < k₀
    · rw [if_pos h1, keysOf_cons, keysOf_cons, List.pairwise_cons]
      refine ⟨?_, ?_⟩
      · intro a ha
        rcases List.mem_cons.mp ha with rfl | ha
        · exact h1
        · exact h1.trans (hs.1 a ha)
      · rw [List.pairwise_cons]
        exact hs
    · rw [if_neg h1]
      by_cases h2 : k = k₀
      · subst h2
        rw [if_pos rfl, keysOf_cons, List.pairwise_cons]
        exact hs
      · have hk0 : k₀ < k := by
          rcases lt_trichotomy k k₀ with h | h | h
          · exact absurd h h1
          · exact absurd h h2
          · exact h
        rw [if_neg h2, keysOf_cons, List.pairwise_cons]
        refine ⟨?_, ih hs.2⟩
        intro a ha
        rcases mem_keysOf_ains.mp ha with rfl | hmem
        · exact hk0
        · exact hs.1 a hmem

theorem sorted_adel {k : κ} {l : List (κ × Bytes)} (hs : SortedKeys l) :
    SortedKeys (adel k l) := by
  rw [SortedKeys, List.chain'_iff_pairwise] at hs ⊢
  induction l with
  | nil => simp [adel, keysOf]
  | cons hd t ih =>
    obtain ⟨k₀, v₀⟩ := hd
    rw [keysOf_cons, List.pairwise_cons] at hs
    rw [adel_cons]
    by_cases h1 : k = k₀
    · rw [if_pos h1]
      exact hs.2
    · rw [if_neg h1, keysOf_cons, List.pairwise_cons]
      refine ⟨?_, ih hs.2⟩
      intro a ha
      exact hs.1 a (keysOf_adel_sub ha)

theorem lastKey_mem {l : List (κ × Bytes)} {m : κ} (h : lastKey l = some m) :
    m ∈ keysOf l := by
  unfold lastKey at h
  have : m ∈ (keysOf l).getLast? := h
  obtain ⟨hne, rfl⟩ := List.mem_getLast?_eq_getLast this
  exact List.getLast_mem hne

theorem le_lastKey {l : List (κ × Bytes)} (hs : SortedKeys l) {k : κ}
    (hk : k ∈ keysOf l) : ∃ m, lastKey l = some m ∧ k ≤ m := by
  induction l with
  | nil => simp [keysOf] at hk
  | cons hd t ih =>
    obtain ⟨k₀, v₀⟩ := hd
    have hp := sortedKeys_pairwise hs
    rw [keysOf_cons, List.pairwise_cons] at hp
    cases t with
    | nil =>
      rw [keysOf_cons, keysOf_nil, List.mem_cons] at hk
      rcases hk with rfl | hk
      · exact ⟨_, rfl, le_refl _⟩
      · exact absurd hk (List.not_mem_nil k)
    | cons hd' t' =>
      have hst : SortedKeys (hd' :: t') := sortedKeys_tail hs
      have hlast : lastKey ((k₀, v₀) :: hd' :: t') = lastKey (hd' :: t') := by
        obtain ⟨a, b⟩ := hd'
        simp only [lastKey, keysOf_cons]
        exact List.getLast?_cons_cons
      rw [keysOf_cons, List.mem_cons] at hk
      rcases hk with rfl | hk
      · have hne : keysOf (hd' :: t') ≠ [] := by
          obtain ⟨a, b⟩ := hd'
          rw [keysOf_cons]
          exact List.cons_ne_nil a _
        have hnn : lastKey (hd' :: t') ≠ none := by
          rw [lastKey]
          intro hc
          exact hne (List.getLast?_eq_none_iff.mp hc)
        obtain ⟨m, hm⟩ := Option.ne_none_iff_exists'.mp hnn
        exact ⟨m, hlast ▸ hm, le_of_lt (hp.1 m (lastKey_mem hm))⟩
      · obtain ⟨m, hm, hle⟩ := ih hst hk
        exact ⟨m, hlast ▸ hm, hle⟩
end AListLemmas

/-! ### Characterizations of the router operations -/

/-- Freshness of the slot returned by `_get_next_slot`: it is strictly
greater than every index currently occupied in the table. -/
theorem get_next_slot_fresh {bl : List (Nat × Bytes)} (hs : SortedKeys bl) :
    ∀ i ∈ keysOf bl, i < Netnode._get_next_slot bl := by
  intro i hi
  obtain ⟨m, hm, hle⟩ := le_lastKey hs hi
  unfold Netnode._get_next_slot
  rw [hm]
  show i < m + 1
  omega

/-- What `Netnode._intdel` does: either nothing was present and it raises
`KeyError`, or it returns a state with the key's inline entry, pointer
entry and pointed-to blob all removed and the other tables untouched. -/
theorem intdel_spec (s : NNState) (key : Nat)
    (hwf : ∀ b, alook key s.supP = some b → ∃ i, b = natToDecimal i) :
    (Netnode._intdel s key = .error .keyError ∧
      alook key s.supP = none ∧ alook key s.sup = none) ∨
    (∃ res : NNState, Netnode._intdel s key = .ok res ∧
      res.sup = adel key s.sup ∧ res.supP = adel key s.supP ∧
      res.hashT = s.hashT ∧ res.hashO = s.hashO ∧ res.blobN = s.blobN ∧
      ((alook key s.supP = none ∧ res.blobM = s.blobM) ∨
       (∃ i, alook key s.supP = some (natToDecimal i) ∧ res.blobM = adel i s.blobM)) ∧
      ((alook key s.supP).isSome ∨ (alook key s.sup).isSome)) := by
  cases hp : alook key s.supP with
  | some sk =>
    obtain ⟨i, rfl⟩ := hwf sk hp
    cases hin : alook key s.sup with
    | some w =>
      have heq : Netnode._intdel s key =
          .ok ⟨adel key s.sup, adel key s.supP, s.hashT, s.hashO, adel i s.blobM, s.blobN⟩ := by
        simp only [Netnode._intdel, hp, hin, parseDecimal_natToDecimal,
          Option.isSome_some, if_true]
      exact Or.inr ⟨_, heq, rfl, rfl, rfl, rfl, rfl,
        Or.inr ⟨i, rfl, rfl⟩, Or.inl (by simp [hp])⟩
    | none =>
      have heq : Netnode._intdel s key =
          .ok ⟨s.sup, adel key s.supP, s.hashT, s.hashO, adel i s.blobM, s.blobN⟩ := by
        simp only [Netnode._intdel, hp, hin, parseDecimal_natToDecimal,
          Option.isSome_none, Bool.false_eq_true, if_false]
      exact Or.inr ⟨_, heq, (adel_of_not_mem (alook_none_iff.mp hin)).symm, rfl, rfl, rfl, rfl,
        Or.inr ⟨i, rfl, rfl⟩, Or.inl (by simp [hp])⟩
  | none =>
    cases hin : alook key s.sup with
    | some w =>
      have heq : Netnode._intdel s key =
          .ok ⟨adel key s.sup, s.supP, s.hashT, s.hashO, s.blobM, s.blobN⟩ := by
        simp only [Netnode._intdel, hp, hin, Option.isSome_some, if_true]
      exact Or.inr ⟨_, heq, rfl, (adel_of_not_mem (alook_none_iff.mp hp)).symm, rfl, rfl, rfl,
        Or.inl ⟨rfl, rfl⟩, Or.inr (by simp [hin])⟩
    | none =>
      have heq : Netnode._intdel s key = .error .keyError := by
        simp only [Netnode._intdel, hp, hin, Option.isSome_none,
          Bool.false_eq_true, if_false]
      exact Or.inl ⟨heq, rfl, rfl⟩

/-- What `Netnode._intset` does: it always succeeds (when the existing
pointer entry for the key, if any, is well-formed), passing to
`_intset_write` a state in which every prior form of the key's entry has
been cleared. -/
theorem intset_spec (s : NNState) (key : Nat) (value : Bytes)
    (hwf : ∀ b, alook key s.supP = some b → ∃ i, b = natToDecimal i) :
    ∃ s1 : NNState,
      s1.sup = adel key s.sup ∧ s1.supP = adel key s.supP ∧
      s1.hashT = s.hashT ∧ s1.hashO = s.hashO ∧ s1.blobN = s.blobN ∧
      ((alook key s.supP = none ∧ s1.blobM = s.blobM) ∨
       (∃ i, alook key s.supP = some (natToDecimal i) ∧ s1.blobM = adel i s.blobM)) ∧
      Netnode._intset s key value = .ok (Netnode._intset_write s1 key value) := by
  rcases intdel_spec s key hwf with ⟨herr, hP, hI⟩ | ⟨res, hok, h1, h2, h3, h4, h5, h6, _⟩
  · refine ⟨s, ?_, ?_, rfl, rfl, rfl, Or.inl ⟨hP, rfl⟩, ?_⟩
    · exact (adel_of_not_mem (alook_none_iff.mp hI)).symm
    · exact (adel_of_not_mem (alook_none_iff.mp hP)).symm
    · simp only [Netnode._intset, herr]
  · refine ⟨res, h1, h2, h3, h4, h5, h6, ?_⟩
    simp only [Netnode._intset, hok]

/-- What `Netnode._strdel` does.  Unlike `_intdel`, the presence test for
the inline entry is Python truthiness, so an empty inline entry is not
deleted and does not count as present. -/
theorem strdel_spec (s : NNState) (key : Bytes)
    (hwf : ∀ b, alook key s.hashO = some b → ∃ i, b = natToDecimal i) :
    (Netnode._strdel s key = .error .keyError ∧
      alook key s.hashO = none ∧ truthy (alook key s.hashT) = false) ∨
    (∃ res : NNState, Netnode._strdel s key = .ok res ∧
      res.hashT = (if truthy (alook key s.hashT) then adel key s.hashT else s.hashT) ∧
      res.hashO = adel key s.hashO ∧
      res.sup = s.sup ∧ res.supP = s.supP ∧ res.blobM = s.blobM ∧
      ((alook key s.hashO = none ∧ res.blobN = s.blobN) ∨
       (∃ i, alook key s.hashO = some (natToDecimal i) ∧ res.blobN = adel i s.blobN)) ∧
      ((alook key s.hashO).isSome ∨ truthy (alook key s.hashT) = true)) := by
  cases hp : alook key s.hashO with
  | some sk =>
    obtain ⟨i, rfl⟩ := hwf sk hp
    by_cases hin : truthy (alook key s.hashT) = true
    · have heq : Netnode._strdel s key =
          .ok ⟨s.sup, s.supP, adel key s.hashT, adel key s.hashO, s.blobM, adel i s.blobN⟩ := by
        simp only [Netnode._strdel, hp, parseDecimal_natToDecimal, hin, if_true]
      exact Or.inr ⟨_, heq, by rw [if_pos hin], rfl, rfl, rfl, rfl,
        Or.inr ⟨i, rfl, rfl⟩, Or.inl (by simp [hp])⟩
    · rw [Bool.not_eq_true] at hin
      have heq : Netnode._strdel s key =
          .ok ⟨s.sup, s.supP, s.hashT, adel key s.hashO, s.blobM, adel i s.blobN⟩ := by
        simp only [Netnode._strdel, hp, parseDecimal_natToDecimal, hin,
          Bool.false_eq_true, if_false]
      exact Or.inr ⟨_, heq, by rw [if_neg (by simp [hin])], rfl, rfl, rfl, rfl,
        Or.inr ⟨i, rfl, rfl⟩, Or.inl (by simp [hp])⟩
  | none =>
    by_cases hin : truthy (alook key s.hashT) = true
    · have heq : Netnode._strdel s key =
          .ok ⟨s.sup, s.supP, adel key s.hashT, s.hashO, s.blobM, s.blobN⟩ := by
        simp only [Netnode._strdel, hp, hin, if_true]
      exact Or.inr ⟨_, heq, by rw [if_pos hin], (adel_of_not_mem (alook_none_iff.mp hp)).symm,
        rfl, rfl, rfl, Or.inl ⟨rfl, rfl⟩, Or.inr hin⟩
    · rw [Bool.not_eq_true] at hin
      have heq : Netnode._strdel s key = .error .keyError := by
        simp only [Netnode._strdel, hp, hin, Bool.false_eq_true, if_false]
      exact Or.inl ⟨heq, rfl, hin⟩

/-- What `Netnode._strset` does. -/
theorem strset_spec (s : NNState) (key : Bytes) (value : Bytes)
    (hwf : ∀ b, alook key s.hashO = some b → ∃ i, b = natToDecimal i) :
    ∃ s1 : NNState,
      s1.hashT = (if truthy (alook key s.hashT) then adel key s.hashT else s.hashT) ∧
      s1.hashO = adel key s.hashO ∧
      s1.sup = s.sup ∧ s1.supP = s.supP ∧ s1.blobM = s.blobM ∧
      ((alook key s.hashO = none ∧ s1.blobN = s.blobN) ∨
       (∃ i, alook key s.hashO = some (natToDecimal i) ∧ s1.blobN = adel i s.blobN)) ∧
      Netnode._strset s key value = .ok (Netnode._strset_write s1 key value) := by
  rcases strdel_spec s key hwf with ⟨herr, hP, hI⟩ | ⟨res, hok, h1, h2, h3, h4, h5, h6, _⟩
  · refine ⟨s, ?_, ?_, rfl, rfl, rfl, Or.inl ⟨hP, rfl⟩, ?_⟩
    · rw [if_neg (by simp [hI])]
    · exact (adel_of_not_mem (alook_none_iff.mp hP)).symm
    · simp only [Netnode._strset, herr]
  · refine ⟨res, h1, h2, h3, h4, h5, h6, ?_⟩
    simp only [Netnode._strset, hok]

/-- The states a `Netnode` facade (with codec `enc`/`comp`) can reach
from the freshly created namespace by public operations: `__setitem__`
and successful `__delitem__`.  Reads do not change the state, and
`Netnode.kill()` returns to `nnEmpty`, which is reachable by
construction. -/
inductive Reachable (enc : α → Bytes) (comp : Bytes → Bytes) : NNState → Prop where
  | empty : Reachable enc comp nnEmpty
  | set {s s' : NNState} {k : NKey} {v : α} : Reachable enc comp s →
      Netnode.__setitem__ enc comp s k v = .ok s' → Reachable enc comp s'
  | del {s s' : NNState} {k : NKey} : Reachable enc comp s →
      Netnode.__delitem__ s k = .ok s' → Reachable enc comp s'

/-! ### State invariants maintained by the facade -/

/-- Structural well-formedness of a netnode state, maintained by the
facade for any codec: all six tables are key-sorted; every overflow
pointer entry is a decimal index whose blob exists; every blob is
referenced by some pointer entry (no orphans); pointers are injective;
and an integer key is never simultaneously present in both physical
forms. -/
structure Inv0 (s : NNState) : Prop where
  sSup : SortedKeys s.sup
  sSupP : SortedKeys s.supP
  sHashT : SortedKeys s.hashT
  sHashO : SortedKeys s.hashO
  sBlobM : SortedKeys s.blobM
  sBlobN : SortedKeys s.blobN
  ptrM : ∀ k b, alook k s.supP = some b →
    ∃ i, b = natToDecimal i ∧ (alook i s.blobM).isSome
  ptrN : ∀ k b, alook k s.hashO = some b →
    ∃ i, b = natToDecimal i ∧ (alook i s.blobN).isSome
  blobM_ok : ∀ i, (alook i s.blobM).isSome →
    ∃ k, alook k s.supP = some (natToDecimal i)
  blobN_ok : ∀ i, (alook i s.blobN).isSome →
    ∃ k, alook k s.hashO = some (natToDecimal i)
  injM : ∀ k k' i, alook k s.supP = some (natToDecimal i) →
    alook k' s.supP = some (natToDecimal i) → k = k'
  injN : ∀ k k' i, alook k s.hashO = some (natToDecimal i) →
    alook k' s.hashO = some (natToDecimal i) → k = k'
  ndInt : ∀ k, alook k s.sup = none ∨ alook k s.supP = none

/-- Additional well-formedness that depends on the compressor never
producing an empty byte string: all inline entries are non-empty (so the
string-domain truthiness tests agree with presence), and a string key is
never simultaneously present in both physical forms. -/
structure InvNE (s : NNState) : Prop where
  neSup : ∀ k b, alook k s.sup = some b → b ≠ []
  neHashT : ∀ k b, alook k s.hashT = some b → b ≠ []
  ndStr : ∀ k, alook k s.hashT = none ∨ alook k s.hashO = none

theorem inv0_empty : Inv0 nnEmpty := by
  constructor <;> first
    | exact List.chain'_nil
    | (intro k b hk; exact Option.noConfusion hk)
    | (intro i hi; simp [alook] at hi)
    | (intro k k' i hk hk'; exact Option.noConfusion hk)
    | (intro k; exact Or.inl rfl)

theorem invNE_empty : InvNE nnEmpty := by
  constructor
  · intro k b hk; exact Option.noConfusion hk
  · intro k b hk; exact Option.noConfusion hk
  · intro k; exact Or.inl rfl

theorem alook_mem_keysOf {κ : Type} [LinearOrder κ] {k : κ} {b : Bytes}
    {l : List (κ × Bytes)} (h : alook k l = some b) : k ∈ keysOf l :=
  alook_isSome_iff.mp (by simp [h])

/-- The clearing phase of an integer-domain write or delete preserves the
structural invariant. -/
theorem inv0_clear_int {s : NNState} (hInv : Inv0 s) (key : Nat) (s1 : NNState)
    (h1 : s1.sup = adel key s.sup) (h2 : s1.supP = adel key s.supP)
    (h3 : s1.hashT = s.hashT) (h4 : s1.hashO = s.hashO) (h5 : s1.blobN = s.blobN)
    (h6 : (alook key s.supP = none ∧ s1.blobM = s.blobM) ∨
          (∃ i, alook key s.supP = some (natToDecimal i) ∧ s1.blobM = adel i s.blobM)) :
    Inv0 s1 := by
  obtain ⟨sSup, sSupP, sHashT, sHashO, sBlobM, sBlobN, ptrM, ptrN,
    blobM_ok, blobN_ok, injM, injN, ndInt⟩ := hInv
  constructor
  · rw [h1]; exact sorted_adel sSup
  · rw [h2]; exact sorted_adel sSupP
  · rw [h3]; exact sHashT
  · rw [h4]; exact sHashO
  · rcases h6 with ⟨_, hB⟩ | ⟨i, _, hB⟩
    · rw [hB]; exact sBlobM
    · rw [hB]; exact sorted_adel sBlobM
  · rw [h5]; exact sBlobN
  · intro k b hk
    rw [h2] at hk
    have hks : alook k s.supP = some b := alook_adel_sub sSupP hk
    obtain ⟨i', hb, hblob⟩ := ptrM k b hks
    refine ⟨i', hb, ?_⟩
    rcases h6 with ⟨hnone, hB⟩ | ⟨i, hsome, hB⟩
    · rw [hB]; exact hblob
    · rw [hB]
      have hkne : k ≠ key := by
        intro hkey
        subst hkey
        rw [alook_adel_self sSupP] at hk
        exact Option.noConfusion hk
      have hine : i' ≠ i := by
        intro hyi
        subst hyi
        subst hb
        exact hkne (injM k key i' hks hsome)
      rw [alook_adel_ne hine]
      exact hblob
  · intro k b hk
    rw [h4] at hk
    obtain ⟨i', hb, hblob⟩ := ptrN k b hk
    exact ⟨i', hb, by rw [h5]; exact hblob⟩
  · intro i' hi
    rcases h6 with ⟨hnone, hB⟩ | ⟨i, hsome, hB⟩
    · rw [hB] at hi
      obtain ⟨k, hk⟩ := blobM_ok i' hi
      have hkne : k ≠ key := by
        intro h
        subst h
        rw [hnone] at hk
        exact Option.noConfusion hk
      exact ⟨k, by rw [h2, alook_adel_ne hkne]; exact hk⟩
    · have hine : i' ≠ i := by
        intro h
        subst h
        rw [hB, alook_adel_self sBlobM] at hi
        exact Bool.noConfusion hi
      rw [hB, alook_adel_ne hine] at hi
      obtain ⟨k, hk⟩ := blobM_ok i' hi
      have hkne : k ≠ key := by
        intro h
        subst h
        rw [hsome] at hk
        exact hine (natToDecimal_injective (Option.some_injective _ hk)).symm
      exact ⟨k, by rw [h2, alook_adel_ne hkne]; exact hk⟩
  · intro i' hi
    rw [h5] at hi
    obtain ⟨k, hk⟩ := blobN_ok i' hi
    exact ⟨k, by rw [h4]; exact hk⟩
  · intro k k' i hk hk'
    rw [h2] at hk hk'
    exact injM k k' i (alook_adel_sub sSupP hk) (alook_adel_sub sSupP hk')
  · intro k k' i hk hk'
    rw [h4] at hk hk'
    exact injN k k' i hk hk'
  · intro k
    by_cases hkey : k = key
    · subst hkey
      exact Or.inl (by rw [h1, alook_adel_self sSup])
    · rw [h1, alook_adel_ne hkey, h2, alook_adel_ne hkey]
      exact ndInt k

/-- The write phase of an integer-domain write preserves the structural
invariant, given that the key's prior forms have been cleared. -/
theorem inv0_write_int {s1 : NNState} (hInv : Inv0 s1) (key : Nat) (value : Bytes)
    (hkP : alook key s1.supP = none) (hkI : alook key s1.sup = none) :
    Inv0 (Netnode._intset_write s1 key value) := by
  obtain ⟨sSup, sSupP, sHashT, sHashO, sBlobM, sBlobN, ptrM, ptrN,
    blobM_ok, blobN_ok, injM, injN, ndInt⟩ := hInv
  unfold Netnode._intset_write
  by_cases hlen : value.length > BLOB_SIZE
  · rw [if_pos hlen]
    have hfresh : ∀ i ∈ keysOf s1.blobM, i < Netnode._get_next_slot s1.blobM :=
      get_next_slot_fresh sBlobM
    have hidxnone : alook (Netnode._get_next_slot s1.blobM) s1.blobM = none := by
      rw [alook_none_iff]
      intro hmem
      exact lt_irrefl _ (hfresh _ hmem)
    constructor
    · exact sSup
    · exact sorted_ains sSupP
    · exact sHashT
    · exact sHashO
    · exact sorted_ains sBlobM
    · exact sBlobN
    · intro k b hk
      by_cases hkey : k = key
      · subst hkey
        rw [alook_ains_self] at hk
        refine ⟨Netnode._get_next_slot s1.blobM, (Option.some_injective _ hk).symm, ?_⟩
        rw [alook_ains_self]
        rfl
      · rw [alook_ains_ne hkey] at hk
        obtain ⟨i, hb, hblob⟩ := ptrM k b hk
        have hine : i ≠ Netnode._get_next_slot s1.blobM := by
          intro h
          exact lt_irrefl _ (h ▸ hfresh i (alook_isSome_iff.mp hblob))
        refine ⟨i, hb, ?_⟩
        rw [alook_ains_ne hine]
        exact hblob
    · intro k b hk
      exact ptrN k b hk
    · intro i hi
      by_cases hidx : i = Netnode._get_next_slot s1.blobM
      · subst hidx
        exact ⟨key, alook_ains_self _ _ _⟩
      · rw [alook_ains_ne hidx] at hi
        obtain ⟨k, hk⟩ := blobM_ok i hi
        have hkne : k ≠ key := by
          intro h
          subst h
          rw [hkP] at hk
          exact Option.noConfusion hk
        exact ⟨k, by rw [alook_ains_ne hkne]; exact hk⟩
    · intro i hi
      exact blobN_ok i hi
    · intro k k' i hk hk'
      by_cases hkey : k = key <;> by_cases hkey' : k' = key
      · rw [hkey, hkey']
      · exfalso
        subst hkey
        rw [alook_ains_self] at hk
        have hidxi : Netnode._get_next_slot s1.blobM = i :=
          natToDecimal_injective (Option.some_injective _ hk)
        rw [alook_ains_ne hkey'] at hk'
        obtain ⟨j, hj, hblob⟩ := ptrM k' _ hk'
        have hji : i = j := natToDecimal_injective hj
        have hlt := hfresh j (alook_isSome_iff.mp hblob)
        rw [← hji, ← hidxi] at hlt
        exact lt_irrefl _ hlt
      · exfalso
        subst hkey'
        rw [alook_ains_self] at hk'
        have hidxi : Netnode._get_next_slot s1.blobM = i :=
          natToDecimal_injective (Option.some_injective _ hk')
        rw [alook_ains_ne hkey] at hk
        obtain ⟨j, hj, hblob⟩ := ptrM k _ hk
        have hji : i = j := natToDecimal_injective hj
        have hlt := hfresh j (alook_isSome_iff.mp hblob)
        rw [← hji, ← hidxi] at hlt
        exact lt_irrefl _ hlt
      · rw [alook_ains_ne hkey] at hk
        rw [alook_ains_ne hkey'] at hk'
        exact injM k k' i hk hk'
    · intro k k' i hk hk'
      exact injN k k' i hk hk'
    · intro k
      by_cases hkey : k = key
      · subst hkey
        exact Or.inl hkI
      · rw [alook_ains_ne hkey]
        exact ndInt k
  · rw [if_neg hlen]
    constructor
    · exact sorted_ains sSup
    · exact sSupP
    · exact sHashT
    · exact sHashO
    · exact sBlobM
    · exact sBlobN
    · intro k b hk; exact ptrM k b hk
    · intro k b hk; exact ptrN k b hk
    · intro i hi; exact blobM_ok i hi
    · intro i hi; exact blobN_ok i hi
    · intro k k' i hk hk'; exact injM k k' i hk hk'
    · intro k k' i hk hk'; exact injN k k' i hk hk'
    · intro k
      by_cases hkey : k = key
      · subst hkey
        exact Or.inr hkP
      · rw [alook_ains_ne hkey]
        exact ndInt k

/-- The clearing phase of a string-domain write or delete preserves the
structural invariant. -/
theorem inv0_clear_str {s : NNState} (hInv : Inv0 s) (key : Bytes) (s1 : NNState)
    (h1 : s1.hashT = (if truthy (alook key s.hashT) then adel key s.hashT else s.hashT))
    (h2 : s1.hashO = adel key s.hashO)
    (h3 : s1.sup = s.sup) (h4 : s1.supP = s.supP) (h5 : s1.blobM = s.blobM)
    (h6 : (alook key s.hashO = none ∧ s1.blobN = s.blobN) ∨
          (∃ i, alook key s.hashO = some (natToDecimal i) ∧ s1.blobN = adel i s.blobN)) :
    Inv0 s1 := by
  obtain ⟨sSup, sSupP, sHashT, sHashO, sBlobM, sBlobN, ptrM, ptrN,
    blobM_ok, blobN_ok, injM, injN, ndInt⟩ := hInv
  constructor
  · rw [h3]; exact sSup
  · rw [h4]; exact sSupP
  · rw [h1]
    by_cases ht : truthy (alook key s.hashT) = true
    · rw [if_pos ht]; exact sorted_adel sHashT
    · rw [if_neg (by simp [Bool.not_eq_true] at ht ⊢; exact ht)]; exact sHashT
  · rw [h2]; exact sorted_adel sHashO
  · rw [h5]; exact sBlobM
  · rcases h6 with ⟨_, hB⟩ | ⟨i, _, hB⟩
    · rw [hB]; exact sBlobN
    · rw [hB]; exact sorted_adel sBlobN
  · intro k b hk
    rw [h4] at hk
    obtain ⟨i', hb, hblob⟩ := ptrM k b hk
    exact ⟨i', hb, by rw [h5]; exact hblob⟩
  · intro k b hk
    rw [h2] at hk
    have hks : alook k s.hashO = some b := alook_adel_sub sHashO hk
    obtain ⟨i', hb, hblob⟩ := ptrN k b hks
    refine ⟨i', hb, ?_⟩
    rcases h6 with ⟨hnone, hB⟩ | ⟨i, hsome, hB⟩
    · rw [hB]; exact hblob
    · rw [hB]
      have hkne : k ≠ key := by
        intro hkey
        subst hkey
        rw [alook_adel_self sHashO] at hk
        exact Option.noConfusion hk
      have hine : i' ≠ i := by
        intro hyi
        subst hyi
        subst hb
        exact hkne (injN k key i' hks hsome)
      rw [alook_adel_ne hine]
      exact hblob
  · intro i' hi
    rw [h5] at hi
    obtain ⟨k, hk⟩ := blobM_ok i' hi
    exact ⟨k, by rw [h4]; exact hk⟩
  · intro i' hi
    rcases h6 with ⟨hnone, hB⟩ | ⟨i, hsome, hB⟩
    · rw [hB] at hi
      obtain ⟨k, hk⟩ := blobN_ok i' hi
      have hkne : k ≠ key := by
        intro h
        subst h
        rw [hnone] at hk
        exact Option.noConfusion hk
      exact ⟨k, by rw [h2, alook_adel_ne hkne]; exact hk⟩
    · have hine : i' ≠ i := by
        intro h
        subst h
        rw [hB, alook_adel_self sBlobN] at hi
        exact Bool.noConfusion hi
      rw [hB, alook_adel_ne hine] at hi
      obtain ⟨k, hk⟩ := blobN_ok i' hi
      have hkne : k ≠ key := by
        intro h
        subst h
        rw [hsome] at hk
        exact hine (natToDecimal_injective (Option.some_injective _ hk)).symm
      exact ⟨k, by rw [h2, alook_adel_ne hkne]; exact hk⟩
  · intro k k' i hk hk'
    rw [h4] at hk hk'
    exact injM k k' i hk hk'
  · intro k k' i hk hk'
    rw [h2] at hk hk'
    exact injN k k' i (alook_adel_sub sHashO hk) (alook_adel_sub sHashO hk')
  · intro k
    rw [h3, h4]
    exact ndInt k

/-- The write phase of a string-domain write preserves the structural
invariant, given that the key's pointer entry has been cleared. -/
theorem inv0_write_str {s1 : NNState} (hInv : Inv0 s1) (key : Bytes) (value : Bytes)
    (hkO : alook key s1.hashO = none) :
    Inv0 (Netnode._strset_write s1 key value) := by
  obtain ⟨sSup, sSupP, sHashT, sHashO, sBlobM, sBlobN, ptrM, ptrN,
    blobM_ok, blobN_ok, injM, injN, ndInt⟩ := hInv
  unfold Netnode._strset_write
  by_cases hlen : value.length > BLOB_SIZE
  · rw [if_pos hlen]
    have hfresh : ∀ i ∈ keysOf s1.blobN, i < Netnode._get_next_slot s1.blobN :=
      get_next_slot_fresh sBlobN
    constructor
    · exact sSup
    · exact sSupP
    · exact sHashT
    · exact sorted_ains sHashO
    · exact sBlobM
    · exact sorted_ains sBlobN
    · intro k b hk
      exact ptrM k b hk
    · intro k b hk
      by_cases hkey : k = key
      · subst hkey
        rw [alook_ains_self] at hk
        refine ⟨Netnode._get_next_slot s1.blobN, (Option.some_injective _ hk).symm, ?_⟩
        rw [alook_ains_self]
        rfl
      · rw [alook_ains_ne hkey] at hk
        obtain ⟨i, hb, hblob⟩ := ptrN k b hk
        have hine : i ≠ Netnode._get_next_slot s1.blobN := by
          intro h
          exact lt_irrefl _ (h ▸ hfresh i (alook_isSome_iff.mp hblob))
        refine ⟨i, hb, ?_⟩
        rw [alook_ains_ne hine]
        exact hblob
    · intro i hi
      exact blobM_ok i hi
    · intro i hi
      by_cases hidx : i = Netnode._get_next_slot s1.blobN
      · subst hidx
        exact ⟨key, alook_ains_self _ _ _⟩
      · rw [alook_ains_ne hidx] at hi
        obtain ⟨k, hk⟩ := blobN_ok i hi
        have hkne : k ≠ key := by
          intro h
          subst h
          rw [hkO] at hk
          exact Option.noConfusion hk
        exact ⟨k, by rw [alook_ains_ne hkne]; exact hk⟩
    · intro k k' i hk hk'
      exact injM k k' i hk hk'
    · intro k k' i hk hk'
      by_cases hkey : k = key <;> by_cases hkey' : k' = key
      · rw [hkey, hkey']
      · exfalso
        subst hkey
        rw [alook_ains_self] at hk
        have hidxi : Netnode._get_next_slot s1.blobN = i :=
          natToDecimal_injective (Option.some_injective _ hk)
        rw [alook_ains_ne hkey'] at hk'
        obtain ⟨j, hj, hblob⟩ := ptrN k' _ hk'
        have hji : i = j := natToDecimal_injective hj
        have hlt := hfresh j (alook_isSome_iff.mp hblob)
        rw [← hji, ← hidxi] at hlt
        exact lt_irrefl _ hlt
      · exfalso
        subst hkey'
        rw [alook_ains_self] at hk'
        have hidxi : Netnode._get_next_slot s1.blobN = i :=
          natToDecimal_injective (Option.some_injective _ hk')
        rw [alook_ains_ne hkey] at hk
        obtain ⟨j, hj, hblob⟩ := ptrN k _ hk
        have hji : i = j := natToDecimal_injective hj
        have hlt := hfresh j (alook_isSome_iff.mp hblob)
        rw [← hji, ← hidxi] at hlt
        exact lt_irrefl _ hlt
      · rw [alook_ains_ne hkey] at hk
        rw [alook_ains_ne hkey'] at hk'
        exact injN k k' i hk hk'
    · intro k
      exact ndInt k
  · rw [if_neg hlen]
    constructor
    · exact sSup
    · exact sSupP
    · exact sorted_ains sHashT
    · exact sHashO
    · exact sBlobM
    · exact sBlobN
    · intro k b hk; exact ptrM k b hk
    · intro k b hk; exact ptrN k b hk
    · intro i hi; exact blobM_ok i hi
    · intro i hi; exact blobN_ok i hi
    · intro k k' i hk hk'; exact injM k k' i hk hk'
    · intro k k' i hk hk'; exact injN k k' i hk hk'
    · intro k; exact ndInt k

/-- After the clearing phase of a string-domain write, the key has no
inline entry: either it was deleted (truthy), or — since inline entries
written by the facade are non-empty — it was never there. -/
theorem alook_clear_hashT {s : NNState} (hInv0 : Inv0 s) (hNE : InvNE s) (key : Bytes) :
    alook key (if truthy (alook key s.hashT) then adel key s.hashT else s.hashT) = none := by
  by_cases ht : truthy (alook key s.hashT) = true
  · rw [if_pos ht]
    exact alook_adel_self hInv0.sHashT
  · rw [Bool.not_eq_true] at ht
    rw [if_neg (by simp [ht])]
    cases hk : alook key s.hashT with
    | none => rfl
    | some b =>
      exfalso
      have hb := hNE.neHashT key b hk
      rw [hk] at ht
      simp only [truthy, Bool.not_eq_false', List.isEmpty_iff] at ht
      exact hb ht

theorem invNE_clear_int {s : NNState} (hInv0 : Inv0 s) (hNE : InvNE s) (key : Nat)
    (s1 : NNState) (h1 : s1.sup = adel key s.sup) (h3 : s1.hashT = s.hashT)
    (h4 : s1.hashO = s.hashO) : InvNE s1 := by
  constructor
  · intro k b hk
    rw [h1] at hk
    exact hNE.neSup k b (alook_adel_sub hInv0.sSup hk)
  · intro k b hk
    rw [h3] at hk
    exact hNE.neHashT k b hk
  · intro k
    rw [h3, h4]
    exact hNE.ndStr k

theorem invNE_write_int {s1 : NNState} (hInv0 : Inv0 s1) (hNE : InvNE s1) (key : Nat)
    (value : Bytes) (hvalue : value ≠ []) :
    InvNE (Netnode._intset_write s1 key value) := by
  unfold Netnode._intset_write
  by_cases hlen : value.length > BLOB_SIZE
  · rw [if_pos hlen]
    constructor
    · intro k b hk; exact hNE.neSup k b hk
    · intro k b hk; exact hNE.neHashT k b hk
    · intro k; exact hNE.ndStr k
  · rw [if_neg hlen]
    constructor
    · intro k b hk
      by_cases hkey : k = key
      · subst hkey
        rw [alook_ains_self] at hk
        rw [← Option.some_injective _ hk]
        exact hvalue
      · rw [alook_ains_ne hkey] at hk
        exact hNE.neSup k b hk
    · intro k b hk; exact hNE.neHashT k b hk
    · intro k; exact hNE.ndStr k

theorem invNE_clear_str {s : NNState} (hInv0 : Inv0 s) (hNE : InvNE s) (key : Bytes)
    (s1 : NNState)
    (h1 : s1.hashT = (if truthy (alook key s.hashT) then adel key s.hashT else s.hashT))
    (h2 : s1.hashO = adel key s.hashO) (h3 : s1.sup = s.sup) : InvNE s1 := by
  constructor
  · intro k b hk
    rw [h3] at hk
    exact hNE.neSup k b hk
  · intro k b hk
    rw [h1] at hk
    by_cases ht : truthy (alook key s.hashT) = true
    · rw [if_pos ht] at hk
      exact hNE.neHashT k b (alook_adel_sub hInv0.sHashT hk)
    · rw [Bool.not_eq_true] at ht
      rw [if_neg (by simp [ht])] at hk
      exact hNE.neHashT k b hk
  · intro k
    by_cases hkey : k = key
    · subst hkey
      exact Or.inr (by rw [h2, alook_adel_self hInv0.sHashO])
    · rw [h1, h2, alook_adel_ne hkey]
      by_cases ht : truthy (alook key s.hashT) = true
      · rw [if_pos ht, alook_adel_ne hkey]
        exact hNE.ndStr k
      · rw [Bool.not_eq_true] at ht
        rw [if_neg (by simp [ht])]
        exact hNE.ndStr k

theorem invNE_write_str {s1 : NNState} (hInv0 : Inv0 s1) (hNE : InvNE s1) (key : Bytes)
    (value : Bytes) (hvalue : value ≠ []) (hkT : alook key s1.hashT = none)
    (hkO : alook key s1.hashO = none) :
    InvNE (Netnode._strset_write s1 key value) := by
  unfold Netnode._strset_write
  by_cases hlen : value.length > BLOB_SIZE
  · rw [if_pos hlen]
    constructor
    · intro k b hk; exact hNE.neSup k b hk
    · intro k b hk; exact hNE.neHashT k b hk
    · intro k
      by_cases hkey : k = key
      · subst hkey
        exact Or.inl hkT
      · rw [alook_ains_ne hkey]
        exact hNE.ndStr k
  · rw [if_neg hlen]
    constructor
    · intro k b hk; exact hNE.neSup k b hk
    · intro k b hk
      by_cases hkey : k = key
      · subst hkey
        rw [alook_ains_self] at hk
        rw [← Option.some_injective _ hk]
        exact hvalue
      · rw [alook_ains_ne hkey] at hk
        exact hNE.neHashT k b hk
    · intro k
      by_cases hkey : k = key
      · subst hkey
        exact Or.inr hkO
      · rw [alook_ains_ne hkey]
        exact hNE.ndStr k

/-- Every reachable state satisfies the structural invariant, whatever
the codec is. -/
theorem reachable_inv0 {α : Type} {enc : α → Bytes} {comp : Bytes → Bytes} {s : NNState}
    (hr : Reachable enc comp s) : Inv0 s := by
  induction hr with
  | empty => exact inv0_empty
  | @set s₀ s' k v hprev heq ih =>
    cases k with
    | int key =>
      simp only [Netnode.__setitem__] at heq
      have hwf : ∀ b, alook key s₀.supP = some b → ∃ i, b = natToDecimal i :=
        fun b hb => (ih.ptrM key b hb).imp (fun i hi => hi.1)
      obtain ⟨s1, e1, e2, e3, e4, e5, e6, heq2⟩ := intset_spec s₀ key (comp (enc v)) hwf
      rw [heq2] at heq
      have hs' : Netnode._intset_write s1 key (comp (enc v)) = s' := Except.ok.inj heq
      rw [← hs']
      exact inv0_write_int (inv0_clear_int ih key s1 e1 e2 e3 e4 e5 e6) key _
        (by rw [e2]; exact alook_adel_self ih.sSupP)
        (by rw [e1]; exact alook_adel_self ih.sSup)
    | str key =>
      simp only [Netnode.__setitem__] at heq
      have hwf : ∀ b, alook key s₀.hashO = some b → ∃ i, b = natToDecimal i :=
        fun b hb => (ih.ptrN key b hb).imp (fun i hi => hi.1)
      obtain ⟨s1, e1, e2, e3, e4, e5, e6, heq2⟩ := strset_spec s₀ key (comp (enc v)) hwf
      rw [heq2] at heq
      have hs' : Netnode._strset_write s1 key (comp (enc v)) = s' := Except.ok.inj heq
      rw [← hs']
      exact inv0_write_str (inv0_clear_str ih key s1 e1 e2 e3 e4 e5 e6) key _
        (by rw [e2]; exact alook_adel_self ih.sHashO)
  | @del s₀ s' k hprev heq ih =>
    cases k with
    | int key =>
      simp only [Netnode.__delitem__] at heq
      have hwf : ∀ b, alook key s₀.supP = some b → ∃ i, b = natToDecimal i :=
        fun b hb => (ih.ptrM key b hb).imp (fun i hi => hi.1)
      rcases intdel_spec s₀ key hwf with ⟨herr, _, _⟩ |
        ⟨res, hok, e1, e2, e3, e4, e5, e6, _⟩
      · rw [herr] at heq
        exact Except.noConfusion heq
      · rw [hok] at heq
        have hres : res = s' := Except.ok.inj heq
        rw [← hres]
        exact inv0_clear_int ih key res e1 e2 e3 e4 e5 e6
    | str key =>
      simp only [Netnode.__delitem__] at heq
      have hwf : ∀ b, alook key s₀.hashO = some b → ∃ i, b = natToDecimal i :=
        fun b hb => (ih.ptrN key b hb).imp (fun i hi => hi.1)
      rcases strdel_spec s₀ key hwf with ⟨herr, _, _⟩ |
        ⟨res, hok, e1, e2, e3, e4, e5, e6, _⟩
      · rw [herr] at heq
        exact Except.noConfusion heq
      · rw [hok] at heq
        have hres : res = s' := Except.ok.inj heq
        rw [← hres]
        exact inv0_clear_str ih key res e1 e2 e3 e4 e5 e6

/-- When the compressor never produces an empty byte string — as is true
of `zlib.compress`, whose output carries a fixed header — every reachable
state also has non-empty inline entries and no string key present in both
forms. -/
theorem reachable_invNE {α : Type} {enc : α → Bytes} {comp : Bytes → Bytes}
    (hcomp : ∀ b, comp b ≠ []) {s : NNState} (hr : Reachable enc comp s) : InvNE s := by
  induction hr with
  | empty => exact invNE_empty
  | @set s₀ s' k v hprev heq ih =>
    have hInv0 := reachable_inv0 hprev
    cases k with
    | int key =>
      simp only [Netnode.__setitem__] at heq
      have hwf : ∀ b, alook key s₀.supP = some b → ∃ i, b = natToDecimal i :=
        fun b hb => (hInv0.ptrM key b hb).imp (fun i hi => hi.1)
      obtain ⟨s1, e1, e2, e3, e4, e5, e6, heq2⟩ := intset_spec s₀ key (comp (enc v)) hwf
      rw [heq2] at heq
      have hs' : Netnode._intset_write s1 key (comp (enc v)) = s' := Except.ok.inj heq
      rw [← hs']
      exact invNE_write_int (inv0_clear_int hInv0 key s1 e1 e2 e3 e4 e5 e6)
        (invNE_clear_int hInv0 ih key s1 e1 e3 e4) key _ (hcomp (enc v))
    | str key =>
      simp only [Netnode.__setitem__] at heq
      have hwf : ∀ b, alook key s₀.hashO = some b → ∃ i, b = natToDecimal i :=
        fun b hb => (hInv0.ptrN key b hb).imp (fun i hi => hi.1)
      obtain ⟨s1, e1, e2, e3, e4, e5, e6, heq2⟩ := strset_spec s₀ key (comp (enc v)) hwf
      rw [heq2] at heq
      have hs' : Netnode._strset_write s1 key (comp (enc v)) = s' := Except.ok.inj heq
      rw [← hs']
      exact invNE_write_str (inv0_clear_str hInv0 key s1 e1 e2 e3 e4 e5 e6)
        (invNE_clear_str hInv0 ih key s1 e1 e2 e3) key _ (hcomp (enc v))
        (by rw [e1]; exact alook_clear_hashT hInv0 ih key)
        (by rw [e2]; exact alook_adel_self hInv0.sHashO)
  | @del s₀ s' k hprev heq ih =>
    have hInv0 := reachable_inv0 hprev
    cases k with
    | int key =>
      simp only [Netnode.__delitem__] at heq
      have hwf : ∀ b, alook key s₀.supP = some b → ∃ i, b = natToDecimal i :=
        fun b hb => (hInv0.ptrM key b hb).imp (fun i hi => hi.1)
      rcases intdel_spec s₀ key hwf with ⟨herr, _, _⟩ |
        ⟨res, hok, e1, e2, e3, e4, e5, e6, _⟩
      · rw [herr] at heq
        exact Except.noConfusion heq
      · rw [hok] at heq
        have hres : res = s' := Except.ok.inj heq
        rw [← hres]
        exact invNE_clear_int hInv0 ih key res e1 e3 e4
    | str key =>
      simp only [Netnode.__delitem__] at heq
      have hwf : ∀ b, alook key s₀.hashO = some b → ∃ i, b = natToDecimal i :=
        fun b hb => (hInv0.ptrN key b hb).imp (fun i hi => hi.1)
      rcases strdel_spec s₀ key hwf with ⟨herr, _, _⟩ |
        ⟨res, hok, e1, e2, e3, e4, e5, e6, _⟩
      · rw [herr] at heq
        exact Except.noConfusion heq
      · rw [hok] at heq
        have hres : res = s' := Except.ok.inj heq
        rw [← hres]
        exact invNE_clear_str hInv0 ih key res e1 e2 e3

/-! ### A concrete codec instance

The theorems below are parametric in the codec; the following small
concrete codec satisfies the specification's Codec contract
(`decode(encode(v)) == v`, compression reversible, compressed output
non-empty) and is used to instantiate them at concrete inputs.  Values
are natural numbers, encoded in unary. -/

/-- A concrete serializer: `n` becomes `n` bytes. -/
def encW : Nat → Bytes := fun n => List.replicate n 7

/-- A concrete reversible compressor (a one-byte header, like a trivial
zlib): never returns the empty byte string. -/
def compW : Bytes → Bytes := fun b => 0 :: b

/-- Inverse of `compW`; fails with `zlib.error` on other inputs. -/
def decompW : Bytes → Except PErr Bytes := fun b =>
  match b with
  | 0 :: t => .ok t
  | _ => .error .zlibError

/-- Inverse of `encW` (total: every byte string decodes). -/
def decW : Bytes → Except PErr (Option Nat) := fun b => .ok (some b.length)

theorem decW_encW (v : Nat) : decW (encW v) = .ok (some v) := by
  simp [decW, encW]

theorem decompW_compW (b : Bytes) : decompW (compW b) = .ok b := rfl

theorem compW_ne_nil (b : Bytes) : compW b ≠ [] := by
  simp [compW]

/-- Extract the state of a successful operation (total helper for naming
concrete states below). -/
def getOk (e : Except PErr NNState) : NNState :=
  match e with
  | .ok s => s
  | .error _ => nnEmpty

/-- A reachable state with one small inline integer entry. -/
def sIntSmall : NNState := getOk (Netnode.__setitem__ encW compW nnEmpty (.int 1) 5)

theorem sIntSmall_reachable : Reachable encW compW sIntSmall :=
  @Reachable.set Nat encW compW nnEmpty sIntSmall (.int 1) 5 Reachable.empty rfl

/-- The compressed encoding of the value 2000 under the concrete codec:
2001 bytes, strictly above the threshold.  (Its length is established by
lemma, never by kernel evaluation of the list.) -/
def valBig : Bytes := compW (encW 2000)

theorem valBig_large : valBig.length > BLOB_SIZE := by
  simp [valBig, compW, encW, BLOB_SIZE]

/-- The state holding exactly one overflow entry: key `k` points at blob
index 0, which holds `valBig`. -/
def sBig (k : Nat) : NNState := ⟨[], [(k, natToDecimal 0)], [], [], [(0, valBig)], []⟩

/-- The write phase of `_intset` on an overflow-sized value, spelled
out. -/
theorem intset_write_large (s1 : NNState) (k : Nat) (val : Bytes)
    (hlen : val.length > BLOB_SIZE) :
    Netnode._intset_write s1 k val =
      { s1 with blobM := ains (Netnode._get_next_slot s1.blobM) val s1.blobM,
                supP := ains k (natToDecimal (Netnode._get_next_slot s1.blobM)) s1.supP } := by
  unfold Netnode._intset_write
  rw [if_pos hlen]

/-- Writing the large value into a state that `_intdel` clears to the
empty state yields exactly `sBig k`. -/
theorem setitem_large_of_cleared {s : NNState} (k : Nat)
    (hdel : Netnode._intdel s k = .ok nnEmpty) :
    Netnode.__setitem__ encW compW s (.int k) 2000 = .ok (sBig k) := by
  simp only [Netnode.__setitem__, Netnode._intset, hdel]
  rw [show compW (encW 2000) = valBig from rfl,
    intset_write_large nnEmpty k valBig valBig_large]
  rfl

/-- Writing the large value into the empty state (where `_intdel` raises
`KeyError`, which `_intset` swallows) also yields exactly `sBig k`. -/
theorem setitem_large_nnEmpty (k : Nat) :
    Netnode.__setitem__ encW compW nnEmpty (.int k) 2000 = .ok (sBig k) := by
  have hdel : Netnode._intdel nnEmpty k = .error .keyError := rfl
  simp only [Netnode.__setitem__, Netnode._intset, hdel]
  rw [show compW (encW 2000) = valBig from rfl,
    intset_write_large nnEmpty k valBig valBig_large]
  rfl

/-- States of the small/large/small migration sequence on the key `1`. -/
def c3s1 : NNState := ⟨[(1, compW (encW 2))], [], [], [], [], []⟩

def c3s3 : NNState := ⟨[(1, compW (encW 3))], [], [], [], [], []⟩

theorem c3s1_step : Netnode.__setitem__ encW compW nnEmpty (.int 1) 2 = .ok c3s1 := rfl

theorem c3s2_step : Netnode.__setitem__ encW compW c3s1 (.int 1) 2000 = .ok (sBig 1) :=
  setitem_large_of_cleared 1 rfl

theorem c3s3_step : Netnode.__setitem__ encW compW (sBig 1) (.int 1) 3 = .ok c3s3 := rfl

theorem c3s3_reachable : Reachable encW compW c3s3 :=
  @Reachable.set Nat encW compW (sBig 1) c3s3 (.int 1) 3
    (@Reachable.set Nat encW compW c3s1 (sBig 1) (.int 1) 2000
      (@Reachable.set Nat encW compW nnEmpty c3s1 (.int 1) 2 Reachable.empty c3s1_step)
      c3s2_step)
    c3s3_step

/-- Steps of the allocate/free/allocate sequence: a large value under
key `1` (blob slot 0), its deletion, then a large value under key `2`,
which is handed blob slot 0 again. -/
theorem c5s1_step : Netnode.__setitem__ encW compW nnEmpty (.int 1) 2000 = .ok (sBig 1) :=
  setitem_large_nnEmpty 1

theorem c5s2_step : Netnode.__delitem__ (sBig 1) (.int 1) = .ok nnEmpty := rfl

theorem c5s3_step : Netnode.__setitem__ encW compW nnEmpty (.int 2) 2000 = .ok (sBig 2) :=
  setitem_large_nnEmpty 2

theorem sBig1_reachable : Reachable encW compW (sBig 1) :=
  @Reachable.set Nat encW compW nnEmpty (sBig 1) (.int 1) 2000 Reachable.empty c5s1_step

theorem sBig2_reachable : Reachable encW compW (sBig 2) :=
  @Reachable.set Nat encW compW nnEmpty (sBig 2) (.int 2) 2000
    (@Reachable.del Nat encW compW (sBig 1) nnEmpty (.int 1) sBig1_reachable c5s2_step)
    c5s3_step

/-- A reachable state with string keys inserted in the order `"c"`,
`"a"`, `"b"` (as byte strings). -/
def c8s : NNState :=
  getOk (Netnode.__setitem__ encW compW
    (getOk (Netnode.__setitem__ encW compW
      (getOk (Netnode.__setitem__ encW compW nnEmpty (.str [99]) 1))
      (.str [97]) 1))
    (.str [98]) 1)

def c8sa : NNState := getOk (Netnode.__setitem__ encW compW nnEmpty (.str [99]) 1)

def c8sb : NNState := getOk (Netnode.__setitem__ encW compW c8sa (.str [97]) 1)

theorem c8s_reachable : Reachable encW compW c8s :=
  @Reachable.set Nat encW compW c8sb c8s (.str [98]) 1
    (@Reachable.set Nat encW compW c8sa c8sb (.str [97]) 1
      (@Reachable.set Nat encW compW nnEmpty c8sa (.str [99]) 1 Reachable.empty rfl) rfl) rfl

/-- A state reached using the concrete `zlibCompress` model as the
compressor. -/
def c10s : NNState := getOk (Netnode.__setitem__ encW zlibCompress nnEmpty (.str [97]) 3)

theorem c10s_reachable : Reachable encW zlibCompress c10s :=
  @Reachable.set Nat encW zlibCompress nnEmpty c10s (.str [97]) 3 Reachable.empty rfl

/-! ### Claim C1 — corruption signalling -/

/-- A corrupted state: the integer-domain pointer table maps key 1 to
blob index 0 (`b"0"` = `[48]`) and the string-domain pointer table maps
key `"a"` (`[97]`) to blob index 0, while both blob tables are empty. -/
def sCorrupt : NNState := ⟨[], [(1, [48])], [], [([97], [48])], [], []⟩

/-- C1 fails on the code: on a key whose pointer entry references a
missing blob, `__getitem__` does raise `NetnodeCorruptError` as claimed,
but `__contains__` does not return `false` — it propagates the same
`NetnodeCorruptError`, because `NetnodeCorruptError` is a `RuntimeError`
and the `except (KeyError, zlib.error)` clause does not catch it. -/
theorem C1_counterexample :
    Netnode.__getitem__ decompW decW sCorrupt (.int 1) = .error .corruptError ∧
    Netnode.__contains__ decompW decW sCorrupt (.int 1) = .error .corruptError ∧
    Netnode.__contains__ decompW decW sCorrupt (.int 1) ≠ .ok false :=
  ⟨rfl, rfl, fun h => Except.noConfusion h⟩

/-- C1 (amended): for every key of either domain whose overflow-pointer
entry references a blob index with no blob present, the direct get
operation raises `CorruptionError`, and the contains operation propagates
that same `CorruptionError` rather than returning `false` (it swallows
only `KeyError` and `zlib.error`). -/
theorem C1_theorem {α : Type} (decomp : Bytes → Except PErr Bytes)
    (dec : Bytes → Except PErr (Option α)) (s : NNState) :
    (∀ (k i : Nat), alook k s.supP = some (natToDecimal i) →
      alook i s.blobM = none →
      Netnode.__getitem__ decomp dec s (.int k) = .error .corruptError ∧
      Netnode.__contains__ decomp dec s (.int k) = .error .corruptError) ∧
    (∀ (k : Bytes) (i : Nat), alook k s.hashO = some (natToDecimal i) →
      alook i s.blobN = none →
      Netnode.__getitem__ decomp dec s (.str k) = .error .corruptError ∧
      Netnode.__contains__ decomp dec s (.str k) = .error .corruptError) := by
  constructor
  · intro k i hk hb
    have hg : Netnode._intget s k = .error .corruptError := by
      simp only [Netnode._intget, hk, parseDecimal_natToDecimal, hb]
    constructor
    · simp only [Netnode.__getitem__, hg]
    · simp only [Netnode.__contains__, Netnode.__getitem__, hg]
  · intro k i hk hb
    have hg : Netnode._strget s k = .error .corruptError := by
      simp only [Netnode._strget, hk, parseDecimal_natToDecimal, hb]
    constructor
    · simp only [Netnode.__getitem__, hg]
    · simp only [Netnode.__contains__, Netnode.__getitem__, hg]

theorem C1_witness :
    Netnode.__getitem__ decompW decW sCorrupt (.int 1) = .error .corruptError ∧
    Netnode.__contains__ decompW decW sCorrupt (.int 1) = .error .corruptError ∧
    Netnode.__getitem__ decompW decW sCorrupt (.str [97]) = .error .corruptError ∧
    Netnode.__contains__ decompW decW sCorrupt (.str [97]) = .error .corruptError :=
  ⟨((C1_theorem decompW decW sCorrupt).1 1 0 rfl rfl).1,
   ((C1_theorem decompW decW sCorrupt).1 1 0 rfl rfl).2,
   ((C1_theorem decompW decW sCorrupt).2 [97] 0 rfl rfl).1,
   ((C1_theorem decompW decW sCorrupt).2 [97] 0 rfl rfl).2⟩

/-! ### Claim C9 — the defaulting read -/

/-- A decoder that models `json.loads` failing on byte strings it cannot
parse (`ValueError`). -/
def decFail : Bytes → Except PErr (Option Nat) := fun b =>
  match b with
  | [7] => .ok (some 7)
  | _ => .error .valueError

/-- A state whose inline entry under key 1 decompresses fine (under
`decompW`) but fails decoding (under `decFail`). -/
def c9s : NNState := ⟨[(1, [0, 8, 8])], [], [], [], [], []⟩

/-- A state whose inline entry under key 1 fails decompression (under
`decompW`). -/
def c9sZ : NNState := ⟨[(1, [9])], [], [], [], [], []⟩

/-- C9 fails on the code: when the stored bytes decompress but fail
decoding (a `json.loads` failure, i.e. a `ValueError`), `Netnode.get`
does not return the default — it propagates the `ValueError`, because its
`except` clause only catches `KeyError` and `zlib.error`. -/
theorem C9_counterexample :
    Netnode.get decompW decFail c9s (.int 1) (some 42) = .error .valueError ∧
    Netnode.get decompW decFail c9s (.int 1) (some 42) ≠ .ok (some 42) :=
  ⟨rfl, fun h => Except.noConfusion h⟩

/-- C9 (amended): `get(key, default)` returns the default when the key is
absent (`KeyError`) or when decompression of the stored bytes fails
(`zlib.error`); but a decoding/parsing failure (`ValueError`) is not
caught and propagates. -/
theorem C9_theorem {α : Type} (decomp : Bytes → Except PErr Bytes)
    (dec : Bytes → Except PErr (Option α)) (s : NNState) (dflt : Option α) :
    (∀ key : Nat, alook key s.supP = none → alook key s.sup = none →
      Netnode.get decomp dec s (.int key) dflt = .ok dflt) ∧
    (∀ (key : Nat) (b : Bytes), alook key s.supP = none → alook key s.sup = some b →
      decomp b = .error .zlibError →
      Netnode.get decomp dec s (.int key) dflt = .ok dflt) ∧
    (∀ (key : Nat) (b data : Bytes), alook key s.supP = none → alook key s.sup = some b →
      decomp b = .ok data → dec data = .error .valueError →
      Netnode.get decomp dec s (.int key) dflt = .error .valueError) ∧
    (∀ key : Bytes, alook key s.hashO = none → alook key s.hashT = none →
      Netnode.get decomp dec s (.str key) dflt = .ok dflt) ∧
    (∀ (key : Bytes) (b : Bytes), alook key s.hashO = none → alook key s.hashT = some b →
      decomp b = .error .zlibError →
      Netnode.get decomp dec s (.str key) dflt = .ok dflt) ∧
    (∀ (key : Bytes) (b data : Bytes), alook key s.hashO = none → alook key s.hashT = some b →
      decomp b = .ok data → dec data = .error .valueError →
      Netnode.get decomp dec s (.str key) dflt = .error .valueError) := by
  refine ⟨?_, ?_, ?_, ?_, ?_, ?_⟩
  · intro key hP hI
    have hg : Netnode._intget s key = .error .keyError := by
      simp only [Netnode._intget, hP, hI]
    simp only [Netnode.get, Netnode.__getitem__, hg]
  · intro key b hP hI hz
    have hg : Netnode._intget s key = .ok b := by
      simp only [Netnode._intget, hP, hI]
    simp only [Netnode.get, Netnode.__getitem__, hg, hz]
  · intro key b data hP hI hdc hdf
    have hg : Netnode._intget s key = .ok b := by
      simp only [Netnode._intget, hP, hI]
    simp only [Netnode.get, Netnode.__getitem__, hg, hdc, hdf]
  · intro key hP hI
    have hg : Netnode._strget s key = .error .keyError := by
      simp only [Netnode._strget, hP, hI]
    simp only [Netnode.get, Netnode.__getitem__, hg]
  · intro key b hP hI hz
    have hg : Netnode._strget s key = .ok b := by
      simp only [Netnode._strget, hP, hI]
    simp only [Netnode.get, Netnode.__getitem__, hg, hz]
  · intro key b data hP hI hdc hdf
    have hg : Netnode._strget s key = .ok b := by
      simp only [Netnode._strget, hP, hI]
    simp only [Netnode.get, Netnode.__getitem__, hg, hdc, hdf]

theorem C9_witness :
    Netnode.get decompW decFail nnEmpty (.int 1) (some 42) = .ok (some 42) ∧
    Netnode.get decompW decFail c9sZ (.int 1) (some 42) = .ok (some 42) ∧
    Netnode.get decompW decFail c9s (.int 1) (some 42) = .error .valueError :=
  ⟨(C9_theorem decompW decFail nnEmpty (some 42)).1 1 rfl rfl,
   (C9_theorem decompW decFail c9sZ (some 42)).2.1 1 [9] rfl rfl rfl,
   (C9_theorem decompW decFail c9s (some 42)).2.2.1 1 [0, 8, 8] [8, 8] rfl rfl rfl rfl⟩

/-! ### Claim C3 — the single-physical-form invariant -/

/-- C3: after every sequence of public operations (for a compressor that
never returns the empty byte string, as `zlib.compress` never does), no
key of either domain is simultaneously present in both physical forms,
every pointer entry's blob exists, and no blob is orphaned. -/
theorem C3_theorem {α : Type} (enc : α → Bytes) (comp : Bytes → Bytes)
    (hcomp : ∀ b, comp b ≠ []) {s : NNState} (hs : Reachable enc comp s) :
    (∀ k : Nat, alook k s.sup = none ∨ alook k s.supP = none) ∧
    (∀ k : Bytes, alook k s.hashT = none ∨ alook k s.hashO = none) ∧
    (∀ (k : Nat) (b : Bytes), alook k s.supP = some b →
      ∃ i, b = natToDecimal i ∧ (alook i s.blobM).isSome) ∧
    (∀ (k b : Bytes), alook k s.hashO = some b →
      ∃ i, b = natToDecimal i ∧ (alook i s.blobN).isSome) ∧
    (∀ i, (alook i s.blobM).isSome → ∃ k, alook k s.supP = some (natToDecimal i)) ∧
    (∀ i, (alook i s.blobN).isSome → ∃ k, alook k s.hashO = some (natToDecimal i)) := by
  have h0 := reachable_inv0 hs
  have hNE := reachable_invNE hcomp hs
  exact ⟨h0.ndInt, hNE.ndStr, h0.ptrM, h0.ptrN, h0.blobM_ok, h0.blobN_ok⟩

theorem C3_witness :
    (∀ k : Nat, alook k c3s3.sup = none ∨ alook k c3s3.supP = none) ∧
    (∀ k : Bytes, alook k c3s3.hashT = none ∨ alook k c3s3.hashO = none) ∧
    (∀ (k : Nat) (b : Bytes), alook k c3s3.supP = some b →
      ∃ i, b = natToDecimal i ∧ (alook i c3s3.blobM).isSome) ∧
    (∀ (k b : Bytes), alook k c3s3.hashO = some b →
      ∃ i, b = natToDecimal i ∧ (alook i c3s3.blobN).isSome) ∧
    (∀ i, (alook i c3s3.blobM).isSome → ∃ k, alook k c3s3.supP = some (natToDecimal i)) ∧
    (∀ i, (alook i c3s3.blobN).isSome → ∃ k, alook k c3s3.hashO = some (natToDecimal i)) :=
  C3_theorem encW compW compW_ne_nil c3s3_reachable

/-! ### Claim C5 — storage-index reuse -/

/-- C5 fails on the code: the allocator recomputes "last occupied slot
plus one" on every call, so an index freed by deletion is handed out
again.  Concretely: writing a large value under key 1 allocates blob
index 0; deleting key 1 frees it; writing a large value under key 2 then
allocates blob index 0 again. -/
theorem C5_counterexample :
    Netnode.__setitem__ encW compW nnEmpty (.int 1) 2000 = .ok (sBig 1) ∧
    alook 1 (sBig 1).supP = some (natToDecimal 0) ∧
    Netnode.__delitem__ (sBig 1) (.int 1) = .ok nnEmpty ∧
    alook 0 nnEmpty.blobM = none ∧ alook 1 nnEmpty.supP = none ∧
    Netnode.__setitem__ encW compW nnEmpty (.int 2) 2000 = .ok (sBig 2) ∧
    alook 2 (sBig 2).supP = some (natToDecimal 0) :=
  ⟨c5s1_step, rfl, c5s2_step, rfl, rfl, c5s3_step, rfl⟩

/-- C5 (amended): the allocator computes its result fresh on each call as
one past the greatest currently occupied index, so within the lifetime of
the facade a freed storage index can be handed out again; what holds is
that the slot returned never collides with any currently live blob of its
domain. -/
theorem C5_theorem {α : Type} (enc : α → Bytes) (comp : Bytes → Bytes) {s : NNState}
    (hs : Reachable enc comp s) :
    (∀ i, (alook i s.blobM).isSome → i < Netnode._get_next_slot s.blobM) ∧
    (∀ i, (alook i s.blobN).isSome → i < Netnode._get_next_slot s.blobN) := by
  have h0 := reachable_inv0 hs
  exact ⟨fun i hi => get_next_slot_fresh h0.sBlobM i (alook_isSome_iff.mp hi),
         fun i hi => get_next_slot_fresh h0.sBlobN i (alook_isSome_iff.mp hi)⟩

theorem C5_witness :
    (∀ i, (alook i (sBig 2).blobM).isSome → i < Netnode._get_next_slot (sBig 2).blobM) ∧
    (∀ i, (alook i (sBig 2).blobN).isSome → i < Netnode._get_next_slot (sBig 2).blobN) :=
  C5_theorem encW compW sBig2_reachable

/-! ### Claim C4 — the slot allocator -/

theorem alook_mem_pair {κ : Type} [LinearOrder κ] {k : κ} {b : Bytes}
    {l : List (κ × Bytes)} (h : alook k l = some b) : (k, b) ∈ l := by
  induction l with
  | nil => exact Option.noConfusion h
  | cons hd t ih =>
    obtain ⟨k₀, v₀⟩ := hd
    rw [alook_cons] at h
    by_cases hk : k = k₀
    · rw [if_pos hk] at h
      subst hk
      rw [Option.some_injective _ h]
      exact List.mem_cons_self _ _
    · rw [if_neg hk] at h
      exact List.mem_cons_of_mem _ (ih h)

theorem mem_pair_alook {κ : Type} [LinearOrder κ] {k : κ} {b : Bytes}
    {l : List (κ × Bytes)} (hs : SortedKeys l) (h : (k, b) ∈ l) :
    alook k l = some b := by
  induction l with
  | nil => exact absurd h (List.not_mem_nil _)
  | cons hd t ih =>
    obtain ⟨k₀, v₀⟩ := hd
    have hp := sortedKeys_pairwise hs
    rw [keysOf_cons, List.pairwise_cons] at hp
    rw [alook_cons]
    rcases List.mem_cons.mp h with heq | hmem
    · have h1 : k = k₀ := congrArg Prod.fst heq
      have h2 : b = v₀ := congrArg Prod.snd heq
      rw [if_pos h1, h2]
    · have hkne : k ≠ k₀ := by
        intro hke
        subst hke
        have hmk : k ∈ keysOf t := List.mem_map_of_mem Prod.fst hmem
        exact lt_irrefl k (hp.1 k hmk)
      rw [if_neg hkne]
      exact ih (sortedKeys_tail hs) hmem

/-- Two lists of naturals with the same members have the same maximum. -/
theorem maximum_eq_of_mem_iff {l₁ l₂ : List Nat} (h : ∀ x, x ∈ l₁ ↔ x ∈ l₂) :
    l₁.maximum = l₂.maximum := by
  cases h₁ : l₁.maximum with
  | bot =>
    rw [List.maximum_eq_bot] at h₁
    subst h₁
    have h₂ : l₂ = [] :=
      List.eq_nil_iff_forall_not_mem.mpr (fun x hx => List.not_mem_nil x ((h x).mpr hx))
    rw [h₂]
    exact List.maximum_nil.symm
  | coe m =>
    have hm1 : m ∈ l₁ := List.maximum_mem h₁
    have hm2 : m ∈ l₂ := (h m).mp hm1
    cases h₂ : l₂.maximum with
    | bot =>
      rw [List.maximum_eq_bot] at h₂
      subst h₂
      exact absurd hm2 (List.not_mem_nil m)
    | coe m' =>
      have hm'2 : m' ∈ l₂ := List.maximum_mem h₂
      have hle : m ≤ m' := List.le_maximum_of_mem hm2 h₂
      have hle' : m' ≤ m := List.le_maximum_of_mem ((h m').mpr hm'2) h₁
      rw [Nat.le_antisymm hle hle']

/-- On a sorted table, the last key is the maximum key. -/
theorem lastKey_eq_maximum {l : List (Nat × Bytes)} (hs : SortedKeys l) :
    lastKey l = (keysOf l).maximum := by
  cases hl : lastKey l with
  | none =>
    unfold lastKey at hl
    rw [List.getLast?_eq_none_iff] at hl
    rw [hl]
    rfl
  | some m =>
    have hmem := lastKey_mem hl
    have hub : ∀ a ∈ keysOf l, a ≤ m := by
      intro a ha
      obtain ⟨m', hm', hle⟩ := le_lastKey hs ha
      rw [hl] at hm'
      rw [Option.some_injective _ hm']
      exact hle
    have h1 : (keysOf l).maximum ≤ (m : WithBot Nat) :=
      List.maximum_le_of_forall_le (fun a ha => WithBot.coe_le_coe.mpr (hub a ha))
    have h2 : (m : WithBot Nat) ≤ (keysOf l).maximum := List.le_maximum_of_mem' hmem
    exact (le_antisymm h2 h1).symm.symm

/-- The storage indices recorded in an overflow-pointer table: the
values of its entries, parsed as decimal numbers. -/
def pointerIndices {κ : Type} (ptrs : List (κ × Bytes)) : List Nat :=
  ptrs.filterMap (fun p => parseDecimal p.2)

/-- Modelled from the spec: `nextSlot(domain)` "returns 1 + the maximum
storage index currently present in `domain`'s overflow-pointer table, or
0 if none exist".  (The code instead queries the last occupied index of
the domain's blob table.) -/
def nextSlotSpec {κ : Type} (ptrs : List (κ × Bytes)) : Nat :=
  match ((pointerIndices ptrs).maximum : Option Nat) with
  | none => 0
  | some m => m + 1

/-- C4: in every reachable state, the code's slot allocator — which
queries the last occupied index of the domain's blob table — agrees with
the specification's description in terms of the overflow-pointer table,
because pointer entries and blobs are in exact correspondence. -/
theorem C4_theorem {α : Type} (enc : α → Bytes) (comp : Bytes → Bytes) {s : NNState}
    (hs : Reachable enc comp s) :
    Netnode._get_next_slot s.blobM = nextSlotSpec s.supP ∧
    Netnode._get_next_slot s.blobN = nextSlotSpec s.hashO := by
  have h0 := reachable_inv0 hs
  constructor
  · have hiff : ∀ x, x ∈ keysOf s.blobM ↔ x ∈ pointerIndices s.supP := by
      intro x
      constructor
      · intro hx
        obtain ⟨k, hk⟩ := h0.blobM_ok x (alook_isSome_iff.mpr hx)
        unfold pointerIndices
        rw [List.mem_filterMap]
        exact ⟨(k, natToDecimal x), alook_mem_pair hk, parseDecimal_natToDecimal x⟩
      · intro hx
        unfold pointerIndices at hx
        rw [List.mem_filterMap] at hx
        obtain ⟨⟨k, b⟩, hmem, hparse⟩ := hx
        obtain ⟨i, rfl, hblob⟩ := h0.ptrM k b (mem_pair_alook h0.sSupP hmem)
        rw [parseDecimal_natToDecimal] at hparse
        rw [← Option.some_injective _ hparse]
        exact alook_isSome_iff.mp hblob
    unfold Netnode._get_next_slot nextSlotSpec
    rw [lastKey_eq_maximum h0.sBlobM, maximum_eq_of_mem_iff hiff]
    rfl
  · have hiff : ∀ x, x ∈ keysOf s.blobN ↔ x ∈ pointerIndices s.hashO := by
      intro x
      constructor
      · intro hx
        obtain ⟨k, hk⟩ := h0.blobN_ok x (alook_isSome_iff.mpr hx)
        unfold pointerIndices
        rw [List.mem_filterMap]
        exact ⟨(k, natToDecimal x), alook_mem_pair hk, parseDecimal_natToDecimal x⟩
      · intro hx
        unfold pointerIndices at hx
        rw [List.mem_filterMap] at hx
        obtain ⟨⟨k, b⟩, hmem, hparse⟩ := hx
        obtain ⟨i, rfl, hblob⟩ := h0.ptrN k b (mem_pair_alook h0.sHashO hmem)
        rw [parseDecimal_natToDecimal] at hparse
        rw [← Option.some_injective _ hparse]
        exact alook_isSome_iff.mp hblob
    unfold Netnode._get_next_slot nextSlotSpec
    rw [lastKey_eq_maximum h0.sBlobN, maximum_eq_of_mem_iff hiff]
    rfl

theorem C4_witness :
    Netnode._get_next_slot (sBig 1).blobM = nextSlotSpec (sBig 1).supP ∧
    Netnode._get_next_slot (sBig 1).blobN = nextSlotSpec (sBig 1).hashO :=
  C4_theorem encW compW sBig1_reachable

/-! ### Claim C2 — round trip -/

/-- C2: for every representable value and any codec satisfying the
specification's Codec contract (`decode(encode(v)) == v` and compression
reversible), `set(k, v)` followed by `get(k)` returns `v`, for keys of
either domain, whether the compressed-encoded form is at or under the
1024-byte threshold or above it. -/
theorem C2_theorem {α : Type} (enc : α → Bytes) (comp : Bytes → Bytes)
    (decomp : Bytes → Except PErr Bytes) (dec : Bytes → Except PErr (Option α))
    (hdec : ∀ v, dec (enc v) = .ok (some v))
    (hdecomp : ∀ b, decomp (comp b) = .ok b)
    {s : NNState} (hs : Reachable enc comp s) (k : NKey) (v : α) :
    ∃ s', Netnode.__setitem__ enc comp s k v = .ok s' ∧
      Netnode.__getitem__ decomp dec s' k = .ok (some v) := by
  have h0 := reachable_inv0 hs
  cases k with
  | int key =>
    have hwf : ∀ b, alook key s.supP = some b → ∃ i, b = natToDecimal i :=
      fun b hb => (h0.ptrM key b hb).imp (fun i hi => hi.1)
    obtain ⟨s1, e1, e2, e3, e4, e5, e6, heq2⟩ := intset_spec s key (comp (enc v)) hwf
    refine ⟨_, by simp only [Netnode.__setitem__]; exact heq2, ?_⟩
    have hP1 : alook key s1.supP = none := by
      rw [e2]
      exact alook_adel_self h0.sSupP
    unfold Netnode._intset_write
    by_cases hlen : (comp (enc v)).length > BLOB_SIZE
    · rw [if_pos hlen]
      have hg : Netnode._intget
          { s1 with blobM := ains (Netnode._get_next_slot s1.blobM) (comp (enc v)) s1.blobM,
                    supP := ains key (natToDecimal (Netnode._get_next_slot s1.blobM)) s1.supP }
          key = .ok (comp (enc v)) := by
        simp only [Netnode._intget, alook_ains_self, parseDecimal_natToDecimal]
      simp only [Netnode.__getitem__, hg, hdecomp, hdec]
    · rw [if_neg hlen]
      have hg : Netnode._intget { s1 with sup := ains key (comp (enc v)) s1.sup } key
          = .ok (comp (enc v)) := by
        simp only [Netnode._intget, hP1, alook_ains_self]
      simp only [Netnode.__getitem__, hg, hdecomp, hdec]
  | str key =>
    have hwf : ∀ b, alook key s.hashO = some b → ∃ i, b = natToDecimal i :=
      fun b hb => (h0.ptrN key b hb).imp (fun i hi => hi.1)
    obtain ⟨s1, e1, e2, e3, e4, e5, e6, heq2⟩ := strset_spec s key (comp (enc v)) hwf
    refine ⟨_, by simp only [Netnode.__setitem__]; exact heq2, ?_⟩
    have hP1 : alook key s1.hashO = none := by
      rw [e2]
      exact alook_adel_self h0.sHashO
    unfold Netnode._strset_write
    by_cases hlen : (comp (enc v)).length > BLOB_SIZE
    · rw [if_pos hlen]
      have hg : Netnode._strget
          { s1 with blobN := ains (Netnode._get_next_slot s1.blobN) (comp (enc v)) s1.blobN,
                    hashO := ains key (natToDecimal (Netnode._get_next_slot s1.blobN)) s1.hashO }
          key = .ok (comp (enc v)) := by
        simp only [Netnode._strget, alook_ains_self, parseDecimal_natToDecimal]
      simp only [Netnode.__getitem__, hg, hdecomp, hdec]
    · rw [if_neg hlen]
      have hg : Netnode._strget { s1 with hashT := ains key (comp (enc v)) s1.hashT } key
          = .ok (comp (enc v)) := by
        simp only [Netnode._strget, hP1, alook_ains_self]
      simp only [Netnode.__getitem__, hg, hdecomp, hdec]

theorem C2_witness :
    (∃ s', Netnode.__setitem__ encW compW nnEmpty (.int 1) 5 = .ok s' ∧
      Netnode.__getitem__ decompW decW s' (.int 1) = .ok (some 5)) ∧
    (∃ s', Netnode.__setitem__ encW compW nnEmpty (.str [97]) 2000 = .ok s' ∧
      Netnode.__getitem__ decompW decW s' (.str [97]) = .ok (some 2000)) :=
  ⟨C2_theorem encW compW decompW decW decW_encW decompW_compW Reachable.empty (.int 1) 5,
   C2_theorem encW compW decompW decW decW_encW decompW_compW Reachable.empty (.str [97]) 2000⟩

theorem alook_adel_isSome {κ : Type} [LinearOrder κ] {k k' : κ}
    {l : List (κ × Bytes)} (hs : SortedKeys l)
    (h : (alook k' (adel k l)).isSome) : (alook k' l).isSome := by
  rw [Option.isSome_iff_exists] at h ⊢
  obtain ⟨b, hb⟩ := h
  exact ⟨b, alook_adel_sub hs hb⟩

/-- An inline str entry can only be absent when its truthiness test is
false, provided inline entries are non-empty. -/
theorem hashT_none_of_truthy_false {s : NNState} (hNE : InvNE s) (key : Bytes)
    (ht : truthy (alook key s.hashT) = false) : alook key s.hashT = none := by
  cases hk : alook key s.hashT with
  | none => rfl
  | some b =>
    exfalso
    have hb := hNE.neHashT key b hk
    rw [hk] at ht
    simp only [truthy, Bool.not_eq_false', List.isEmpty_iff] at ht
    exact hb ht

/-! ### Claim C6 — the threshold boundary -/

/-- C6: a write whose compressed-encoded form is at most `BLOB_SIZE`
bytes stores it inline, leaves no pointer entry for the key, and creates
no blob or pointer entries; one whose form exceeds `BLOB_SIZE` leaves no
inline entry and creates exactly one pointer entry (for the key) and one
blob entry (at the allocated index), and nothing else. -/
theorem C6_theorem {α : Type} (enc : α → Bytes) (comp : Bytes → Bytes)
    (hcomp : ∀ b, comp b ≠ []) {s : NNState} (hs : Reachable enc comp s) (v : α) :
    (∀ key : Nat,
      ((comp (enc v)).length ≤ BLOB_SIZE →
        ∃ s', Netnode.__setitem__ enc comp s (.int key) v = .ok s' ∧
          alook key s'.sup = some (comp (enc v)) ∧
          alook key s'.supP = none ∧
          (∀ j, (alook j s'.blobM).isSome → (alook j s.blobM).isSome) ∧
          (∀ m, (alook m s'.supP).isSome → (alook m s.supP).isSome)) ∧
      ((comp (enc v)).length > BLOB_SIZE →
        ∃ s' idx, Netnode.__setitem__ enc comp s (.int key) v = .ok s' ∧
          alook key s'.sup = none ∧
          alook key s'.supP = some (natToDecimal idx) ∧
          alook idx s'.blobM = some (comp (enc v)) ∧
          (∀ j, j ≠ idx → (alook j s'.blobM).isSome → (alook j s.blobM).isSome) ∧
          (∀ m, m ≠ key → (alook m s'.supP).isSome → (alook m s.supP).isSome))) ∧
    (∀ key : Bytes,
      ((comp (enc v)).length ≤ BLOB_SIZE →
        ∃ s', Netnode.__setitem__ enc comp s (.str key) v = .ok s' ∧
          alook key s'.hashT = some (comp (enc v)) ∧
          alook key s'.hashO = none ∧
          (∀ j, (alook j s'.blobN).isSome → (alook j s.blobN).isSome) ∧
          (∀ m, (alook m s'.hashO).isSome → (alook m s.hashO).isSome)) ∧
      ((comp (enc v)).length > BLOB_SIZE →
        ∃ s' idx, Netnode.__setitem__ enc comp s (.str key) v = .ok s' ∧
          alook key s'.hashT = none ∧
          alook key s'.hashO = some (natToDecimal idx) ∧
          alook idx s'.blobN = some (comp (enc v)) ∧
          (∀ j, j ≠ idx → (alook j s'.blobN).isSome → (alook j s.blobN).isSome) ∧
          (∀ m, m ≠ key → (alook m s'.hashO).isSome → (alook m s.hashO).isSome))) := by
  have h0 := reachable_inv0 hs
  have hNE := reachable_invNE hcomp hs
  constructor
  · intro key
    have hwf : ∀ b, alook key s.supP = some b → ∃ i, b = natToDecimal i :=
      fun b hb => (h0.ptrM key b hb).imp (fun i hi => hi.1)
    obtain ⟨s1, e1, e2, e3, e4, e5, e6, heq2⟩ := intset_spec s key (comp (enc v)) hwf
    have hP1 : alook key s1.supP = none := by
      rw [e2]
      exact alook_adel_self h0.sSupP
    have hI1 : alook key s1.sup = none := by
      rw [e1]
      exact alook_adel_self h0.sSup
    have hblobsub : ∀ j, (alook j s1.blobM).isSome → (alook j s.blobM).isSome := by
      intro j hj
      rcases e6 with ⟨_, hB⟩ | ⟨i, _, hB⟩
      · rw [hB] at hj
        exact hj
      · rw [hB] at hj
        exact alook_adel_isSome h0.sBlobM hj
    have hPsub : ∀ m, (alook m s1.supP).isSome → (alook m s.supP).isSome := by
      intro m hm
      rw [e2] at hm
      exact alook_adel_isSome h0.sSupP hm
    constructor
    · intro hlen
      have hn : ¬ (comp (enc v)).length > BLOB_SIZE := not_lt.mpr hlen
      refine ⟨_, by simp only [Netnode.__setitem__]; exact heq2, ?_, ?_, ?_, ?_⟩
      · unfold Netnode._intset_write
        rw [if_neg hn]
        exact alook_ains_self _ _ _
      · unfold Netnode._intset_write
        rw [if_neg hn]
        exact hP1
      · unfold Netnode._intset_write
        rw [if_neg hn]
        exact hblobsub
      · unfold Netnode._intset_write
        rw [if_neg hn]
        exact hPsub
    · intro hlen
      refine ⟨_, Netnode._get_next_slot s1.blobM,
        by simp only [Netnode.__setitem__]; exact heq2, ?_, ?_, ?_, ?_, ?_⟩
      · unfold Netnode._intset_write
        rw [if_pos hlen]
        exact hI1
      · unfold Netnode._intset_write
        rw [if_pos hlen]
        exact alook_ains_self _ _ _
      · unfold Netnode._intset_write
        rw [if_pos hlen]
        exact alook_ains_self _ _ _
      · unfold Netnode._intset_write
        rw [if_pos hlen]
        intro j hj hjs
        rw [alook_ains_ne hj] at hjs
        exact hblobsub j hjs
      · unfold Netnode._intset_write
        rw [if_pos hlen]
        intro m hm hms
        rw [alook_ains_ne hm] at hms
        exact hPsub m hms
  · intro key
    have hwf : ∀ b, alook key s.hashO = some b → ∃ i, b = natToDecimal i :=
      fun b hb => (h0.ptrN key b hb).imp (fun i hi => hi.1)
    obtain ⟨s1, e1, e2, e3, e4, e5, e6, heq2⟩ := strset_spec s key (comp (enc v)) hwf
    have hO1 : alook key s1.hashO = none := by
      rw [e2]
      exact alook_adel_self h0.sHashO
    have hT1 : alook key s1.hashT = none := by
      rw [e1]
      exact alook_clear_hashT h0 hNE key
    have hblobsub : ∀ j, (alook j s1.blobN).isSome → (alook j s.blobN).isSome := by
      intro j hj
      rcases e6 with ⟨_, hB⟩ | ⟨i, _, hB⟩
      · rw [hB] at hj
        exact hj
      · rw [hB] at hj
        exact alook_adel_isSome h0.sBlobN hj
    have hPsub : ∀ m, (alook m s1.hashO).isSome → (alook m s.hashO).isSome := by
      intro m hm
      rw [e2] at hm
      exact alook_adel_isSome h0.sHashO hm
    constructor
    · intro hlen
      have hn : ¬ (comp (enc v)).length > BLOB_SIZE := not_lt.mpr hlen
      refine ⟨_, by simp only [Netnode.__setitem__]; exact heq2, ?_, ?_, ?_, ?_⟩
      · unfold Netnode._strset_write
        rw [if_neg hn]
        exact alook_ains_self _ _ _
      · unfold Netnode._strset_write
        rw [if_neg hn]
        exact hO1
      · unfold Netnode._strset_write
        rw [if_neg hn]
        exact hblobsub
      · unfold Netnode._strset_write
        rw [if_neg hn]
        exact hPsub
    · intro hlen
      refine ⟨_, Netnode._get_next_slot s1.blobN,
        by simp only [Netnode.__setitem__]; exact heq2, ?_, ?_, ?_, ?_, ?_⟩
      · unfold Netnode._strset_write
        rw [if_pos hlen]
        exact hT1
      · unfold Netnode._strset_write
        rw [if_pos hlen]
        exact alook_ains_self _ _ _
      · unfold Netnode._strset_write
        rw [if_pos hlen]
        exact alook_ains_self _ _ _
      · unfold Netnode._strset_write
        rw [if_pos hlen]
        intro j hj hjs
        rw [alook_ains_ne hj] at hjs
        exact hblobsub j hjs
      · unfold Netnode._strset_write
        rw [if_pos hlen]
        intro m hm hms
        rw [alook_ains_ne hm] at hms
        exact hPsub m hms

theorem C6_witness :
    (∃ s', Netnode.__setitem__ encW compW nnEmpty (.int 1) 5 = .ok s' ∧
      alook 1 s'.sup = some (compW (encW 5)) ∧
      alook 1 s'.supP = none ∧
      (∀ j, (alook j s'.blobM).isSome → (alook j nnEmpty.blobM).isSome) ∧
      (∀ m, (alook m s'.supP).isSome → (alook m nnEmpty.supP).isSome)) ∧
    (∃ s' idx, Netnode.__setitem__ encW compW nnEmpty (.int 1) 2000 = .ok s' ∧
      alook 1 s'.sup = none ∧
      alook 1 s'.supP = some (natToDecimal idx) ∧
      alook idx s'.blobM = some (compW (encW 2000)) ∧
      (∀ j, j ≠ idx → (alook j s'.blobM).isSome → (alook j nnEmpty.blobM).isSome) ∧
      (∀ m, m ≠ 1 → (alook m s'.supP).isSome → (alook m nnEmpty.supP).isSome)) :=
  ⟨((C6_theorem encW compW compW_ne_nil Reachable.empty 5).1 1).1 (by decide),
   ((C6_theorem encW compW compW_ne_nil Reachable.empty 2000).1 1).2 valBig_large⟩

/-! ### Claim C7 — deletion completeness -/

/-- C7: deleting a key removes whichever physical forms are present
(inline entry, pointer entry and its blob), after which `contains` is
`false` and no residual pointer or blob entry for the key remains;
deleting a key with neither form present raises `KeyError`. -/
theorem C7_theorem {α : Type} (enc : α → Bytes) (comp : Bytes → Bytes)
    (hcomp : ∀ b, comp b ≠ []) {s : NNState} (hs : Reachable enc comp s)
    (decomp : Bytes → Except PErr Bytes) (dec : Bytes → Except PErr (Option α)) :
    (∀ key : Nat,
      (((alook key s.sup).isSome ∨ (alook key s.supP).isSome) →
        ∃ s', Netnode.__delitem__ s (.int key) = .ok s' ∧
          alook key s'.sup = none ∧ alook key s'.supP = none ∧
          (∀ i, alook key s.supP = some (natToDecimal i) → alook i s'.blobM = none) ∧
          Netnode.__contains__ decomp dec s' (.int key) = .ok false) ∧
      ((alook key s.sup = none ∧ alook key s.supP = none) →
        Netnode.__delitem__ s (.int key) = .error .keyError)) ∧
    (∀ key : Bytes,
      (((alook key s.hashT).isSome ∨ (alook key s.hashO).isSome) →
        ∃ s', Netnode.__delitem__ s (.str key) = .ok s' ∧
          alook key s'.hashT = none ∧ alook key s'.hashO = none ∧
          (∀ i, alook key s.hashO = some (natToDecimal i) → alook i s'.blobN = none) ∧
          Netnode.__contains__ decomp dec s' (.str key) = .ok false) ∧
      ((alook key s.hashT = none ∧ alook key s.hashO = none) →
        Netnode.__delitem__ s (.str key) = .error .keyError)) := by
  have h0 := reachable_inv0 hs
  have hNE := reachable_invNE hcomp hs
  constructor
  · intro key
    have hwf : ∀ b, alook key s.supP = some b → ∃ i, b = natToDecimal i :=
      fun b hb => (h0.ptrM key b hb).imp (fun i hi => hi.1)
    constructor
    · intro hpres
      rcases intdel_spec s key hwf with ⟨_, hP, hI⟩ |
        ⟨res, hok, e1, e2, e3, e4, e5, e6, _⟩
      · exfalso
        rcases hpres with h | h
        · rw [hI] at h
          exact Bool.noConfusion h
        · rw [hP] at h
          exact Bool.noConfusion h
      · have hsup' : alook key res.sup = none := by
          rw [e1]
          exact alook_adel_self h0.sSup
        have hsupP' : alook key res.supP = none := by
          rw [e2]
          exact alook_adel_self h0.sSupP
        refine ⟨res, by simp only [Netnode.__delitem__]; exact hok, hsup', hsupP', ?_, ?_⟩
        · intro i hi
          rcases e6 with ⟨hnone, _⟩ | ⟨i', hsome, hB⟩
          · rw [hnone] at hi
            exact Option.noConfusion hi
          · rw [hsome] at hi
            have : i' = i := natToDecimal_injective (Option.some_injective _ hi)
            rw [hB, ← this]
            exact alook_adel_self h0.sBlobM
        · have hg : Netnode._intget res key = .error .keyError := by
            simp only [Netnode._intget, hsupP', hsup']
          simp only [Netnode.__contains__, Netnode.__getitem__, hg]
    · intro ⟨hI, hP⟩
      rcases intdel_spec s key hwf with ⟨herr, _, _⟩ |
        ⟨res, hok, e1, e2, e3, e4, e5, e6, hpres⟩
      · simp only [Netnode.__delitem__]
        exact herr
      · exfalso
        rcases hpres with h | h
        · rw [hP] at h
          exact Bool.noConfusion h
        · rw [hI] at h
          exact Bool.noConfusion h
  · intro key
    have hwf : ∀ b, alook key s.hashO = some b → ∃ i, b = natToDecimal i :=
      fun b hb => (h0.ptrN key b hb).imp (fun i hi => hi.1)
    constructor
    · intro hpres
      rcases strdel_spec s key hwf with ⟨_, hP, hI⟩ |
        ⟨res, hok, e1, e2, e3, e4, e5, e6, _⟩
      · exfalso
        rcases hpres with h | h
        · rw [hashT_none_of_truthy_false hNE key hI] at h
          exact Bool.noConfusion h
        · rw [hP] at h
          exact Bool.noConfusion h
      · have hhashT' : alook key res.hashT = none := by
          rw [e1]
          exact alook_clear_hashT h0 hNE key
        have hhashO' : alook key res.hashO = none := by
          rw [e2]
          exact alook_adel_self h0.sHashO
        refine ⟨res, by simp only [Netnode.__delitem__]; exact hok, hhashT', hhashO', ?_, ?_⟩
        · intro i hi
          rcases e6 with ⟨hnone, _⟩ | ⟨i', hsome, hB⟩
          · rw [hnone] at hi
            exact Option.noConfusion hi
          · rw [hsome] at hi
            have : i' = i := natToDecimal_injective (Option.some_injective _ hi)
            rw [hB, ← this]
            exact alook_adel_self h0.sBlobN
        · have hg : Netnode._strget res key = .error .keyError := by
            simp only [Netnode._strget, hhashO', hhashT']
          simp only [Netnode.__contains__, Netnode.__getitem__, hg]
    · intro ⟨hI, hP⟩
      rcases strdel_spec s key hwf with ⟨herr, _, _⟩ |
        ⟨res, hok, e1, e2, e3, e4, e5, e6, hpres⟩
      · simp only [Netnode.__delitem__]
        exact herr
      · exfalso
        rcases hpres with h | h
        · rw [hP] at h
          exact Bool.noConfusion h
        · rw [hI, show truthy none = false from rfl] at h
          exact Bool.noConfusion h

theorem C7_witness :
    (∃ s', Netnode.__delitem__ sIntSmall (.int 1) = .ok s' ∧
      alook 1 s'.sup = none ∧ alook 1 s'.supP = none ∧
      (∀ i, alook 1 sIntSmall.supP = some (natToDecimal i) → alook i s'.blobM = none) ∧
      Netnode.__contains__ decompW decW s' (.int 1) = .ok false) ∧
    Netnode.__delitem__ nnEmpty (.int 2) = .error .keyError :=
  ⟨((C7_theorem encW compW compW_ne_nil sIntSmall_reachable decompW decW).1 1).1
      (Or.inl rfl),
   ((C7_theorem encW compW compW_ne_nil Reachable.empty decompW decW).1 2).2 ⟨rfl, rfl⟩⟩

/-! ### Claim C8 — iteration order -/

/-- C8: in every reachable state, `keys()` is exactly the concatenation
of the integer inline keys, the integer overflow keys, the string inline
keys and the string overflow keys, each group in its table's forward
iteration order — which is ascending for integer keys and byte-wise
lexicographic ascending for string keys. -/
theorem C8_theorem {α : Type} (enc : α → Bytes) (comp : Bytes → Bytes) {s : NNState}
    (hs : Reachable enc comp s) :
    Netnode.keys s =
      (s.sup.map (fun p => NKey.int p.1)) ++ (s.supP.map (fun p => NKey.int p.1)) ++
      (s.hashT.map (fun p => NKey.str p.1)) ++ (s.hashO.map (fun p => NKey.str p.1)) ∧
    (keysOf s.sup).Chain' (· < ·) ∧ (keysOf s.supP).Chain' (· < ·) ∧
    (keysOf s.hashT).Chain' (· < ·) ∧ (keysOf s.hashO).Chain' (· < ·) := by
  have h0 := reachable_inv0 hs
  exact ⟨rfl, h0.sSup, h0.sSupP, h0.sHashT, h0.sHashO⟩

theorem C8_witness :
    Netnode.keys c8s =
      (c8s.sup.map (fun p => NKey.int p.1)) ++ (c8s.supP.map (fun p => NKey.int p.1)) ++
      (c8s.hashT.map (fun p => NKey.str p.1)) ++ (c8s.hashO.map (fun p => NKey.str p.1)) ∧
    (keysOf c8s.sup).Chain' (· < ·) ∧ (keysOf c8s.supP).Chain' (· < ·) ∧
    (keysOf c8s.hashT).Chain' (· < ·) ∧ (keysOf c8s.hashO).Chain' (· < ·) :=
  C8_theorem encW compW c8s_reachable

/-! ### Claim C10 — non-empty inline entries -/

/-- C10: `zlib.compress` output (modelled by its RFC 1950 framing) is
never the empty byte string, and consequently — for any compressor with
that property — every inline entry of a reachable state is non-empty, so
the string-domain truthiness presence test used by `_strdel` agrees
exactly with actual entry presence. -/
theorem C10_theorem {α : Type} (enc : α → Bytes) (comp : Bytes → Bytes)
    (hcomp : ∀ b, comp b ≠ []) {s : NNState} (hs : Reachable enc comp s) :
    (∀ b, zlibCompress b ≠ []) ∧
    (∀ (k : Nat) (b : Bytes), alook k s.sup = some b → b ≠ []) ∧
    (∀ (k b : Bytes), alook k s.hashT = some b → b ≠ []) ∧
    (∀ k : Bytes, truthy (alook k s.hashT) = (alook k s.hashT).isSome) := by
  have hNE := reachable_invNE hcomp hs
  refine ⟨zlibCompress_ne_nil, hNE.neSup, hNE.neHashT, ?_⟩
  intro k
  cases hk : alook k s.hashT with
  | none => rfl
  | some b =>
    have hb := hNE.neHashT k b hk
    simp [truthy, List.isEmpty_iff, hb]

theorem C10_witness :
    (∀ b, zlibCompress b ≠ []) ∧
    (∀ (k : Nat) (b : Bytes), alook k c10s.sup = some b → b ≠ []) ∧
    (∀ (k b : Bytes), alook k c10s.hashT = some b → b ≠ []) ∧
    (∀ k : Bytes, truthy (alook k c10s.hashT) = (alook k c10s.hashT).isSome) :=
  C10_theorem encW zlibCompress zlibCompress_ne_nil c10s_reachable

end IdaNetnode
